import Mathlib

/-!
Verification of the operational-transform text-edit core.

The Rust source (src/lib.rs) defines a value type `TextOperation`: an ordered
list of primitives (`Retain n`, `Delete n`, `Insert s`), together with the two
derived lengths `base_len` and `target_len`, and the operators `apply`,
`invert`, `compose`, `transform` and `is_noop` over it.  This file gives a
shallow embedding of that code and proves the specification's laws about it.

Embedding conventions:
* Rust strings become `List Char`; all counts are Unicode-character counts, so
  they become `Nat`.
* The incremental builder methods `retain` / `delete` / `insert` mutate the
  edit in place in Rust; here they are pure functions returning the new edit.
  Their tail-merging list surgery is embedded as the list functions
  `retainOps` / `deleteOps` / `insertOps`.
* The `compose` and `transform` loops walk the two op lists carrying partially
  consumed head operations.  They are embedded as fuel-indexed structural
  recursions (`composeGo` / `transformGo`); the fuel `opsWeight l1 +
  opsWeight l2 + 1` strictly exceeds the loop's step count, so the fuel-out
  branch is unreachable at the entry points `composeOps` / `transformOps`.
* Rust panics (`assert_eq!` preconditions and the internal "operation is too
  short" panics) are modeled by returning `none`.  The Rust `invert` contains
  no assertion at all, so its embedding is a total function.
-/

set_option maxHeartbeats 1000000
set_option linter.unreachableTactic false
set_option linter.unusedTactic false

namespace OT

/-- The three edit primitives, in the order of the Rust `enum Operation`. -/
inductive Operation where
  | Delete : Nat → Operation
  | Retain : Nat → Operation
  | Insert : List Char → Operation
deriving DecidableEq

/-- The `TextOperation` struct: op list plus the two derived lengths. -/
structure TextOperation where
  ops : List Operation
  base_len : Nat
  target_len : Nat
deriving DecidableEq

/-- `Default::default()` for `TextOperation`. -/
def TextOperation.default : TextOperation := ⟨[], 0, 0⟩

/-- Characters consumed from the input by one primitive. -/
def opBase : Operation → Nat
  | Operation.Retain n => n
  | Operation.Delete n => n
  | Operation.Insert _ => 0

/-- Characters contributed to the output by one primitive. -/
def opTarget : Operation → Nat
  | Operation.Retain n => n
  | Operation.Delete _ => 0
  | Operation.Insert s => s.length

/-- Sum of `Retain` and `Delete` counts of an op list. -/
def opsBaseLen (l : List Operation) : Nat := (l.map opBase).sum

/-- Sum of `Retain` counts and `Insert` character counts of an op list. -/
def opsTargetLen (l : List Operation) : Nat := (l.map opTarget).sum

/-- List surgery of `TextOperation::retain`: merge into a trailing `Retain`,
else push a new `Retain` at the end. -/
def retainOps (i : Nat) : List Operation → List Operation
  | [] => [Operation.Retain i]
  | [Operation.Retain k] => [Operation.Retain (k + i)]
  | x :: xs => x :: retainOps i xs

/-- List surgery of `TextOperation::delete`: merge into a trailing `Delete`,
else push a new `Delete` at the end. -/
def deleteOps (i : Nat) : List Operation → List Operation
  | [] => [Operation.Delete i]
  | [Operation.Delete k] => [Operation.Delete (k + i)]
  | x :: xs => x :: deleteOps i xs

/-- List surgery of `TextOperation::insert`: merge into a trailing `Insert`,
merge into an `Insert` sitting just before a trailing `Delete`, reorder an
`Insert` in front of a trailing `Delete`, else push at the end. -/
def insertOps (s : List Char) : List Operation → List Operation
  | [] => [Operation.Insert s]
  | [Operation.Insert t] => [Operation.Insert (t ++ s)]
  | [Operation.Insert t, Operation.Delete d] => [Operation.Insert (t ++ s), Operation.Delete d]
  | [Operation.Delete d] => [Operation.Insert s, Operation.Delete d]
  | x :: xs => x :: insertOps s xs

/-- `TextOperation::retain`. -/
def TextOperation.retain (o : TextOperation) (i : Nat) : TextOperation :=
  if i = 0 then o
  else ⟨retainOps i o.ops, o.base_len + i, o.target_len + i⟩

/-- `TextOperation::delete`. -/
def TextOperation.delete (o : TextOperation) (i : Nat) : TextOperation :=
  if i = 0 then o
  else ⟨deleteOps i o.ops, o.base_len + i, o.target_len⟩

/-- `TextOperation::insert`. -/
def TextOperation.insert (o : TextOperation) (s : List Char) : TextOperation :=
  if s = [] then o
  else ⟨insertOps s o.ops, o.base_len, o.target_len + s.length⟩

/-- `TextOperation::add`: dispatch one primitive to the matching builder entry
point. -/
def TextOperation.add (o : TextOperation) : Operation → TextOperation
  | Operation.Delete i => o.delete i
  | Operation.Insert s => o.insert s
  | Operation.Retain i => o.retain i

/-- The `FromIterator<Operation>` impl: fold every primitive through `add`
starting from the default (empty) edit. -/
def fromOps (l : List Operation) : TextOperation :=
  l.foldl TextOperation.add TextOperation.default

/-- The loop body of `TextOperation::apply`: `Retain n` copies the next `n`
input characters, `Delete n` skips `n` input characters, `Insert t` appends
`t`. -/
def applyOps : List Operation → List Char → List Char
  | [], _ => []
  | Operation.Retain n :: ops, s => s.take n ++ applyOps ops (s.drop n)
  | Operation.Delete n :: ops, s => applyOps ops (s.drop n)
  | Operation.Insert t :: ops, s => t ++ applyOps ops s

/-- `TextOperation::apply`; the `assert_eq!` on the input length is modeled by
`none`. -/
def TextOperation.apply (o : TextOperation) (s : List Char) : Option (List Char) :=
  if s.length = o.base_len then some (applyOps o.ops s) else none

/-- The loop of `TextOperation::invert`, emitting the primitives that are fed
through the builder: `Retain n` is re-emitted (cursor advances), `Insert t`
emits `Delete (|t|)`, `Delete d` emits an `Insert` of the next `d` input
characters. -/
def invertOps : List Operation → List Char → List Operation
  | [], _ => []
  | Operation.Retain n :: ops, s => Operation.Retain n :: invertOps ops (s.drop n)
  | Operation.Insert t :: ops, s => Operation.Delete t.length :: invertOps ops s
  | Operation.Delete d :: ops, s => Operation.Insert (s.take d) :: invertOps ops (s.drop d)

/-- `TextOperation::invert`.  The Rust function performs no validation of `s`,
so the embedding is total. -/
def TextOperation.invert (o : TextOperation) (s : List Char) : TextOperation :=
  fromOps (invertOps o.ops s)

/-- Termination weight of one primitive for the two-cursor loops. -/
def opWeight : Operation → Nat
  | Operation.Retain n => n + 1
  | Operation.Delete n => n + 1
  | Operation.Insert s => s.length + 1

/-- Termination weight of an op list. -/
def opsWeight (l : List Operation) : Nat := (l.map opWeight).sum

/-- The loop of `TextOperation::compose`, with the Rust match arms in source
order (left `Delete` first, then right `Insert`, then the exhaustion panics,
then the four head pairs split by comparison).  The result is the list of
primitives emitted into the output builder; `none` models the panics. -/
def composeGo : Nat → List Operation → List Operation → Option (List Operation)
  | 0, _, _ => none
  | _ + 1, [], [] => some []
  | fuel + 1, Operation.Delete i :: t1, l2 =>
      (composeGo fuel t1 l2).map (fun r => Operation.Delete i :: r)
  | fuel + 1, l1, Operation.Insert s :: t2 =>
      (composeGo fuel l1 t2).map (fun r => Operation.Insert s :: r)
  | _ + 1, [], _ => none
  | _ + 1, _, [] => none
  | fuel + 1, Operation.Retain i :: t1, Operation.Retain j :: t2 =>
      if i < j then
        (composeGo fuel t1 (Operation.Retain (j - i) :: t2)).map
          (fun r => Operation.Retain i :: r)
      else if j < i then
        (composeGo fuel (Operation.Retain (i - j) :: t1) t2).map
          (fun r => Operation.Retain j :: r)
      else
        (composeGo fuel t1 t2).map (fun r => Operation.Retain i :: r)
  | fuel + 1, Operation.Insert s :: t1, Operation.Delete j :: t2 =>
      if s.length < j then
        composeGo fuel t1 (Operation.Delete (j - s.length) :: t2)
      else if j < s.length then
        composeGo fuel (Operation.Insert (s.drop j) :: t1) t2
      else
        composeGo fuel t1 t2
  | fuel + 1, Operation.Insert s :: t1, Operation.Retain j :: t2 =>
      if s.length < j then
        (composeGo fuel t1 (Operation.Retain (j - s.length) :: t2)).map
          (fun r => Operation.Insert s :: r)
      else if j < s.length then
        (composeGo fuel (Operation.Insert (s.drop j) :: t1) t2).map
          (fun r => Operation.Insert (s.take j) :: r)
      else
        (composeGo fuel t1 t2).map (fun r => Operation.Insert s :: r)
  | fuel + 1, Operation.Retain i :: t1, Operation.Delete j :: t2 =>
      if i < j then
        (composeGo fuel t1 (Operation.Delete (j - i) :: t2)).map
          (fun r => Operation.Delete i :: r)
      else if j < i then
        (composeGo fuel (Operation.Retain (i - j) :: t1) t2).map
          (fun r => Operation.Delete j :: r)
      else
        (composeGo fuel t1 t2).map (fun r => Operation.Delete j :: r)

/-- The compose loop at its (sufficient) fuel. -/
def composeOps (l1 l2 : List Operation) : Option (List Operation) :=
  composeGo (opsWeight l1 + opsWeight l2 + 1) l1 l2

/-- `TextOperation::compose`; the `assert_eq!` precondition is modeled by the
guard, the internal panics by `none` from the loop. -/
def TextOperation.compose (a b : TextOperation) : Option TextOperation :=
  if a.target_len = b.base_len then (composeOps a.ops b.ops).map fromOps else none

/-- The loop of `TextOperation::transform`, with the Rust match arms in source
order (left `Insert` first, then right `Insert`, then the exhaustion panics,
then the four head pairs).  It returns the primitive lists emitted into the
`a_prime` and `b_prime` builders. -/
def transformGo : Nat → List Operation → List Operation →
    Option (List Operation × List Operation)
  | 0, _, _ => none
  | _ + 1, [], [] => some ([], [])
  | fuel + 1, Operation.Insert s :: t1, l2 =>
      (transformGo fuel t1 l2).map
        (fun p => (Operation.Insert s :: p.1, Operation.Retain s.length :: p.2))
  | fuel + 1, l1, Operation.Insert s :: t2 =>
      (transformGo fuel l1 t2).map
        (fun p => (Operation.Retain s.length :: p.1, Operation.Insert s :: p.2))
  | _ + 1, [], _ => none
  | _ + 1, _, [] => none
  | fuel + 1, Operation.Retain i :: t1, Operation.Retain j :: t2 =>
      if i < j then
        (transformGo fuel t1 (Operation.Retain (j - i) :: t2)).map
          (fun p => (Operation.Retain i :: p.1, Operation.Retain i :: p.2))
      else if j < i then
        (transformGo fuel (Operation.Retain (i - j) :: t1) t2).map
          (fun p => (Operation.Retain j :: p.1, Operation.Retain j :: p.2))
      else
        (transformGo fuel t1 t2).map
          (fun p => (Operation.Retain i :: p.1, Operation.Retain i :: p.2))
  | fuel + 1, Operation.Delete i :: t1, Operation.Delete j :: t2 =>
      if i < j then
        transformGo fuel t1 (Operation.Delete (j - i) :: t2)
      else if j < i then
        transformGo fuel (Operation.Delete (i - j) :: t1) t2
      else
        transformGo fuel t1 t2
  | fuel + 1, Operation.Delete i :: t1, Operation.Retain j :: t2 =>
      if i < j then
        (transformGo fuel t1 (Operation.Retain (j - i) :: t2)).map
          (fun p => (Operation.Delete i :: p.1, p.2))
      else if j < i then
        (transformGo fuel (Operation.Delete (i - j) :: t1) t2).map
          (fun p => (Operation.Delete j :: p.1, p.2))
      else
        (transformGo fuel t1 t2).map (fun p => (Operation.Delete i :: p.1, p.2))
  | fuel + 1, Operation.Retain i :: t1, Operation.Delete j :: t2 =>
      if i < j then
        (transformGo fuel t1 (Operation.Delete (j - i) :: t2)).map
          (fun p => (p.1, Operation.Delete i :: p.2))
      else if j < i then
        (transformGo fuel (Operation.Retain (i - j) :: t1) t2).map
          (fun p => (p.1, Operation.Delete j :: p.2))
      else
        (transformGo fuel t1 t2).map (fun p => (p.1, Operation.Delete i :: p.2))

/-- The transform loop at its (sufficient) fuel. -/
def transformOps (l1 l2 : List Operation) : Option (List Operation × List Operation) :=
  transformGo (opsWeight l1 + opsWeight l2 + 1) l1 l2

/-- `TextOperation::transform`; the `assert_eq!` precondition is modeled by
the guard, the internal panics by `none` from the loop. -/
def TextOperation.transform (a b : TextOperation) :
    Option (TextOperation × TextOperation) :=
  if a.base_len = b.base_len then
    (transformOps a.ops b.ops).map (fun p => (fromOps p.1, fromOps p.2))
  else none

/-- `TextOperation::is_noop`. -/
def TextOperation.is_noop (o : TextOperation) : Bool :=
  match o.ops with
  | [] => true
  | [Operation.Retain _] => true
  | _ => false

/-- A primitive that is not a zero-length no-op. -/
def opNonZero : Operation → Bool
  | Operation.Retain n => decide (n ≠ 0)
  | Operation.Delete n => decide (n ≠ 0)
  | Operation.Insert s => decide (s ≠ [])

/-- The adjacency constraint of canonical form: never two primitives of the
same variant next to each other, and never an `Insert` directly after a
`Delete`. -/
def canonPair : Operation → Operation → Bool
  | Operation.Retain _, Operation.Retain _ => false
  | Operation.Delete _, Operation.Delete _ => false
  | Operation.Insert _, Operation.Insert _ => false
  | Operation.Delete _, Operation.Insert _ => false
  | _, _ => true

/-- Canonical form of an op list: no zero primitives and every adjacent pair
satisfies `canonPair`. -/
def canonOps : List Operation → Bool
  | [] => true
  | [x] => opNonZero x
  | x :: y :: t => opNonZero x && canonPair x y && canonOps (y :: t)

/-- A canonical `TextOperation`: canonical op list and both length fields
equal to the analytic sums over the op list. -/
def CanonicalEdit (o : TextOperation) : Prop :=
  canonOps o.ops = true ∧ o.base_len = opsBaseLen o.ops ∧
    o.target_len = opsTargetLen o.ops

instance (o : TextOperation) : Decidable (CanonicalEdit o) := by
  unfold CanonicalEdit; infer_instance

/-! ### Basic length and semantics lemmas -/

@[simp] theorem opsBaseLen_nil : opsBaseLen [] = 0 := rfl

@[simp] theorem opsBaseLen_cons (x : Operation) (l : List Operation) :
    opsBaseLen (x :: l) = opBase x + opsBaseLen l := by
  simp [opsBaseLen]

@[simp] theorem opsBaseLen_append (l1 l2 : List Operation) :
    opsBaseLen (l1 ++ l2) = opsBaseLen l1 + opsBaseLen l2 := by
  simp [opsBaseLen]

@[simp] theorem opsTargetLen_nil : opsTargetLen [] = 0 := rfl

@[simp] theorem opsTargetLen_cons (x : Operation) (l : List Operation) :
    opsTargetLen (x :: l) = opTarget x + opsTargetLen l := by
  simp [opsTargetLen]

@[simp] theorem opsTargetLen_append (l1 l2 : List Operation) :
    opsTargetLen (l1 ++ l2) = opsTargetLen l1 + opsTargetLen l2 := by
  simp [opsTargetLen]

@[simp] theorem opsWeight_nil : opsWeight [] = 0 := rfl

@[simp] theorem opsWeight_cons (x : Operation) (l : List Operation) :
    opsWeight (x :: l) = opWeight x + opsWeight l := by
  simp [opsWeight]

@[simp] theorem applyOps_nil (s : List Char) : applyOps [] s = [] := rfl

@[simp] theorem applyOps_retain (n : Nat) (ops : List Operation) (s : List Char) :
    applyOps (Operation.Retain n :: ops) s = s.take n ++ applyOps ops (s.drop n) := rfl

@[simp] theorem applyOps_delete (n : Nat) (ops : List Operation) (s : List Char) :
    applyOps (Operation.Delete n :: ops) s = applyOps ops (s.drop n) := rfl

@[simp] theorem applyOps_insert (t : List Char) (ops : List Operation) (s : List Char) :
    applyOps (Operation.Insert t :: ops) s = t ++ applyOps ops s := rfl

theorem applyOps_append (l1 l2 : List Operation) (s : List Char) :
    applyOps (l1 ++ l2) s = applyOps l1 s ++ applyOps l2 (s.drop (opsBaseLen l1)) := by
  induction l1 generalizing s with
  | nil => simp
  | cons x t ih =>
    cases x with
    | Retain n => simp [ih, List.drop_drop, opBase]
    | Delete n => simp [ih, List.drop_drop, opBase]
    | Insert u => simp [ih, opBase]

theorem applyOps_length (l : List Operation) (s : List Char)
    (h : opsBaseLen l ≤ s.length) : (applyOps l s).length = opsTargetLen l := by
  induction l generalizing s with
  | nil => simp
  | cons x t ih =>
    cases x with
    | Retain n =>
      simp only [applyOps_retain, List.length_append, List.length_take]
      simp only [opsBaseLen_cons, opBase] at h
      rw [ih (s.drop n) (by simp; omega)]
      simp [opTarget]
      omega
    | Delete n =>
      simp only [applyOps_delete, opsTargetLen_cons, opTarget]
      simp only [opsBaseLen_cons, opBase] at h
      rw [ih (s.drop n) (by simp; omega)]
      omega
    | Insert u =>
      simp only [applyOps_insert, List.length_append, opsTargetLen_cons, opTarget]
      simp only [opsBaseLen_cons, opBase] at h
      rw [ih s (by omega)]

/-! ### Builder lemmas: list surgery preserves semantics, lengths, canonicity -/

/-- The effect of `TextOperation::add` on the op list, including the zero
guards of the three entry points. -/
def addOp (p : Operation) (l : List Operation) : List Operation :=
  match p with
  | Operation.Retain i => if i = 0 then l else retainOps i l
  | Operation.Delete i => if i = 0 then l else deleteOps i l
  | Operation.Insert s => if s = [] then l else insertOps s l

theorem add_ops (o : TextOperation) (p : Operation) :
    (o.add p).ops = addOp p o.ops := by
  cases p <;> simp only [TextOperation.add, TextOperation.retain, TextOperation.delete,
    TextOperation.insert, addOp] <;> split <;> rfl

theorem add_base (o : TextOperation) (p : Operation) :
    (o.add p).base_len = o.base_len + opBase p := by
  cases p <;> simp only [TextOperation.add, TextOperation.retain, TextOperation.delete,
    TextOperation.insert, opBase] <;> split <;> simp_all

theorem add_target (o : TextOperation) (p : Operation) :
    (o.add p).target_len = o.target_len + opTarget p := by
  cases p <;> simp only [TextOperation.add, TextOperation.retain, TextOperation.delete,
    TextOperation.insert, opTarget] <;> split <;> simp_all

theorem retainOps_base (i : Nat) (l : List Operation) :
    opsBaseLen (retainOps i l) = opsBaseLen l + i := by
  induction l with
  | nil => simp [retainOps, opBase]
  | cons x xs ih =>
    cases xs with
    | nil =>
      cases x <;> simp [retainOps, opBase] <;> omega
    | cons y ys =>
      cases x <;> simp [retainOps, ih, opBase, opTarget] <;> omega

theorem retainOps_target (i : Nat) (l : List Operation) :
    opsTargetLen (retainOps i l) = opsTargetLen l + i := by
  induction l with
  | nil => simp [retainOps, opTarget]
  | cons x xs ih =>
    cases xs with
    | nil =>
      cases x <;> simp [retainOps, opTarget] <;> omega
    | cons y ys =>
      cases x <;> simp [retainOps, ih, opBase, opTarget] <;> omega

theorem retainOps_sem (i : Nat) (l : List Operation) (s : List Char) :
    applyOps (retainOps i l) s = applyOps (l ++ [Operation.Retain i]) s := by
  induction l generalizing s with
  | nil => rfl
  | cons x xs ih =>
    cases xs with
    | nil =>
      cases x with
      | Retain k =>
        simp only [retainOps, applyOps_retain, applyOps_nil, List.append_nil,
          List.cons_append, List.nil_append, List.take_add]
      | Delete k => rfl
      | Insert u => rfl
    | cons y ys =>
      cases x <;> simp [retainOps, ih]

theorem deleteOps_base (i : Nat) (l : List Operation) :
    opsBaseLen (deleteOps i l) = opsBaseLen l + i := by
  induction l with
  | nil => simp [deleteOps, opBase]
  | cons x xs ih =>
    cases xs with
    | nil =>
      cases x <;> simp [deleteOps, opBase] <;> omega
    | cons y ys =>
      cases x <;> simp [deleteOps, ih, opBase, opTarget] <;> omega

theorem deleteOps_target (i : Nat) (l : List Operation) :
    opsTargetLen (deleteOps i l) = opsTargetLen l := by
  induction l with
  | nil => simp [deleteOps, opTarget]
  | cons x xs ih =>
    cases xs with
    | nil =>
      cases x <;> simp [deleteOps, opTarget]
    | cons y ys =>
      cases x <;> simp [deleteOps, ih, opBase, opTarget] <;> omega

theorem deleteOps_sem (i : Nat) (l : List Operation) (s : List Char) :
    applyOps (deleteOps i l) s = applyOps (l ++ [Operation.Delete i]) s := by
  induction l generalizing s with
  | nil => rfl
  | cons x xs ih =>
    cases xs with
    | nil =>
      cases x with
      | Retain k => rfl
      | Delete k =>
        simp [deleteOps, List.drop_drop, Nat.add_comm]
      | Insert u => rfl
    | cons y ys =>
      cases x <;> simp [deleteOps, ih]

theorem insertOps_base (u : List Char) (l : List Operation) :
    opsBaseLen (insertOps u l) = opsBaseLen l := by
  induction l with
  | nil => simp [insertOps, opBase]
  | cons x xs ih =>
    cases xs with
    | nil =>
      cases x <;> simp [insertOps, opBase]
    | cons y ys =>
      cases ys with
      | nil =>
        cases x <;> cases y <;> simp [insertOps, opBase]
      | cons z zs =>
        cases x <;> simp [insertOps, ih, opBase] <;> omega

theorem insertOps_target (u : List Char) (l : List Operation) :
    opsTargetLen (insertOps u l) = opsTargetLen l + u.length := by
  induction l with
  | nil => simp [insertOps, opTarget]
  | cons x xs ih =>
    cases xs with
    | nil =>
      cases x <;> simp [insertOps, opTarget] <;> omega
    | cons y ys =>
      cases ys with
      | nil =>
        cases x <;> cases y <;> simp [insertOps, opTarget] <;> omega
      | cons z zs =>
        cases x <;> simp [insertOps, ih, opTarget] <;> omega

theorem insertOps_sem (u : List Char) (l : List Operation) (s : List Char) :
    applyOps (insertOps u l) s = applyOps (l ++ [Operation.Insert u]) s := by
  induction l generalizing s with
  | nil => rfl
  | cons x xs ih =>
    cases xs with
    | nil =>
      cases x with
      | Retain k => rfl
      | Delete k => simp [insertOps]
      | Insert t => simp [insertOps]
    | cons y ys =>
      cases ys with
      | nil =>
        cases x <;> cases y <;> simp [insertOps, ih]
      | cons z zs =>
        cases x <;> simp [insertOps, ih]

theorem addOp_base (p : Operation) (l : List Operation) :
    opsBaseLen (addOp p l) = opsBaseLen l + opBase p := by
  cases p with
  | Retain i =>
    by_cases h : i = 0 <;>
      simp [addOp, h, retainOps_base, opBase]
  | Delete i =>
    by_cases h : i = 0 <;>
      simp [addOp, h, deleteOps_base, opBase]
  | Insert u =>
    by_cases h : u = [] <;>
      simp [addOp, h, insertOps_base, opBase]

theorem addOp_target (p : Operation) (l : List Operation) :
    opsTargetLen (addOp p l) = opsTargetLen l + opTarget p := by
  cases p with
  | Retain i =>
    by_cases h : i = 0 <;>
      simp [addOp, h, retainOps_target, opTarget]
  | Delete i =>
    by_cases h : i = 0 <;>
      simp [addOp, h, deleteOps_target, opTarget]
  | Insert u =>
    by_cases h : u = [] <;>
      simp [addOp, h, insertOps_target, opTarget]

theorem addOp_sem (p : Operation) (l : List Operation) (s : List Char) :
    applyOps (addOp p l) s = applyOps (l ++ [p]) s := by
  cases p with
  | Retain i =>
    by_cases h : i = 0
    · simp [addOp, h, applyOps_append]
    · simp [addOp, h, retainOps_sem]
  | Delete i =>
    by_cases h : i = 0
    · simp [addOp, h, applyOps_append]
    · simp [addOp, h, deleteOps_sem]
  | Insert u =>
    by_cases h : u = []
    · simp [addOp, h, applyOps_append]
    · simp [addOp, h, insertOps_sem]

theorem foldl_add_ops (l : List Operation) (o : TextOperation) (s : List Char) :
    applyOps (l.foldl TextOperation.add o).ops s = applyOps (o.ops ++ l) s := by
  induction l generalizing o with
  | nil => simp
  | cons p t ih =>
    rw [List.foldl_cons, ih (o.add p), add_ops]
    rw [show o.ops ++ p :: t = (o.ops ++ [p]) ++ t from by simp]
    rw [applyOps_append, applyOps_append, addOp_sem]
    rw [addOp_base]
    simp

theorem foldl_add_base (l : List Operation) (o : TextOperation) :
    (l.foldl TextOperation.add o).base_len = o.base_len + opsBaseLen l := by
  induction l generalizing o with
  | nil => simp
  | cons p t ih =>
    rw [List.foldl_cons, ih (o.add p), add_base]
    simp
    omega

theorem foldl_add_target (l : List Operation) (o : TextOperation) :
    (l.foldl TextOperation.add o).target_len = o.target_len + opsTargetLen l := by
  induction l generalizing o with
  | nil => simp
  | cons p t ih =>
    rw [List.foldl_cons, ih (o.add p), add_target]
    simp
    omega

theorem foldl_add_ops_base (l : List Operation) (o : TextOperation) :
    opsBaseLen (l.foldl TextOperation.add o).ops = opsBaseLen o.ops + opsBaseLen l := by
  induction l generalizing o with
  | nil => simp
  | cons p t ih =>
    rw [List.foldl_cons, ih (o.add p), add_ops, addOp_base]
    simp
    omega

theorem foldl_add_ops_target (l : List Operation) (o : TextOperation) :
    opsTargetLen (l.foldl TextOperation.add o).ops = opsTargetLen o.ops + opsTargetLen l := by
  induction l generalizing o with
  | nil => simp
  | cons p t ih =>
    rw [List.foldl_cons, ih (o.add p), add_ops, addOp_target]
    simp
    omega

@[simp] theorem fromOps_sem (l : List Operation) (s : List Char) :
    applyOps (fromOps l).ops s = applyOps l s := by
  rw [fromOps, foldl_add_ops]
  rfl

@[simp] theorem fromOps_base (l : List Operation) :
    (fromOps l).base_len = opsBaseLen l := by
  rw [fromOps, foldl_add_base]
  simp [TextOperation.default]

@[simp] theorem fromOps_target (l : List Operation) :
    (fromOps l).target_len = opsTargetLen l := by
  rw [fromOps, foldl_add_target]
  simp [TextOperation.default]

@[simp] theorem fromOps_ops_base (l : List Operation) :
    opsBaseLen (fromOps l).ops = opsBaseLen l := by
  rw [fromOps, foldl_add_ops_base]
  simp [TextOperation.default]

@[simp] theorem fromOps_ops_target (l : List Operation) :
    opsTargetLen (fromOps l).ops = opsTargetLen l := by
  rw [fromOps, foldl_add_ops_target]
  simp [TextOperation.default]

/-! ### Canonical-form preservation by the builder -/

/-- Variant tag of a primitive (used to compare adjacency constraints). -/
def variant : Operation → Nat
  | Operation.Delete _ => 0
  | Operation.Retain _ => 1
  | Operation.Insert _ => 2

theorem canonPair_congr (x y z : Operation) (h : variant z = variant y) :
    canonPair x z = canonPair x y := by
  cases x <;> cases y <;> cases z <;> simp_all [variant, canonPair]

theorem canonOps_cons2_parts (x y : Operation) (t : List Operation)
    (h : canonOps (x :: y :: t) = true) :
    opNonZero x = true ∧ canonPair x y = true ∧ canonOps (y :: t) = true := by
  simpa [canonOps, Bool.and_eq_true, and_assoc] using h

theorem canonOps_head_ok (x z : Operation) (rest : List Operation)
    (h1 : opNonZero x = true) (h2 : canonPair x z = true)
    (h3 : canonOps (z :: rest) = true) : canonOps (x :: z :: rest) = true := by
  simp [canonOps, h1, h2, h3]

theorem retainOps_cons2 (i : Nat) (x y : Operation) (ys : List Operation) :
    retainOps i (x :: y :: ys) = x :: retainOps i (y :: ys) := by
  cases x <;> rfl

theorem deleteOps_cons2 (i : Nat) (x y : Operation) (ys : List Operation) :
    deleteOps i (x :: y :: ys) = x :: deleteOps i (y :: ys) := by
  cases x <;> rfl

theorem retainOps_head_variant (i : Nat) (y : Operation) (t : List Operation) :
    ∃ z rest, retainOps i (y :: t) = z :: rest ∧ variant z = variant y := by
  cases t with
  | nil => cases y <;> exact ⟨_, _, rfl, rfl⟩
  | cons w ws =>
    rw [retainOps_cons2]
    exact ⟨_, _, rfl, rfl⟩

theorem deleteOps_head_variant (i : Nat) (y : Operation) (t : List Operation) :
    ∃ z rest, deleteOps i (y :: t) = z :: rest ∧ variant z = variant y := by
  cases t with
  | nil => cases y <;> exact ⟨_, _, rfl, rfl⟩
  | cons w ws =>
    rw [deleteOps_cons2]
    exact ⟨_, _, rfl, rfl⟩

theorem insertOps_cons3 (u : List Char) (x y z : Operation) (zs : List Operation) :
    insertOps u (x :: y :: z :: zs) = x :: insertOps u (y :: z :: zs) := by
  cases x <;> cases y <;> cases z <;> rfl

theorem insertOps_head_variant (u : List Char) (y z : Operation) (zs : List Operation) :
    ∃ w rest, insertOps u (y :: z :: zs) = w :: rest ∧ variant w = variant y := by
  cases zs with
  | nil => cases y <;> cases z <;> exact ⟨_, _, rfl, rfl⟩
  | cons v vs =>
    rw [insertOps_cons3]
    exact ⟨_, _, rfl, rfl⟩

theorem canon_retainOps (i : Nat) (l : List Operation)
    (h : canonOps l = true) (hi : i ≠ 0) : canonOps (retainOps i l) = true := by
  induction l with
  | nil => simpa [retainOps, canonOps, opNonZero] using hi
  | cons x xs ih =>
    cases xs with
    | nil =>
      cases x with
      | Retain k =>
        simp [retainOps, canonOps, opNonZero]
        exact Or.inr hi
      | Delete k =>
        simp only [canonOps, opNonZero] at h
        simp [retainOps, canonOps, opNonZero, canonPair, h, hi]
      | Insert t =>
        simp only [canonOps, opNonZero] at h
        simp [retainOps, canonOps, opNonZero, canonPair, h, hi]
    | cons y ys =>
      obtain ⟨h1, h2, h3⟩ := canonOps_cons2_parts x y ys h
      obtain ⟨z, rest, hz, hvar⟩ := retainOps_head_variant i y ys
      rw [retainOps_cons2, hz]
      exact canonOps_head_ok x z rest h1
        (by rw [canonPair_congr x y z hvar]; exact h2)
        (by rw [← hz]; exact ih h3)

theorem canon_deleteOps (i : Nat) (l : List Operation)
    (h : canonOps l = true) (hi : i ≠ 0) : canonOps (deleteOps i l) = true := by
  induction l with
  | nil => simpa [deleteOps, canonOps, opNonZero] using hi
  | cons x xs ih =>
    cases xs with
    | nil =>
      cases x with
      | Delete k =>
        simp [deleteOps, canonOps, opNonZero]
        exact Or.inr hi
      | Retain k =>
        simp only [canonOps, opNonZero] at h
        simp [deleteOps, canonOps, opNonZero, canonPair, h, hi]
      | Insert t =>
        simp only [canonOps, opNonZero] at h
        simp [deleteOps, canonOps, opNonZero, canonPair, h, hi]
    | cons y ys =>
      obtain ⟨h1, h2, h3⟩ := canonOps_cons2_parts x y ys h
      obtain ⟨z, rest, hz, hvar⟩ := deleteOps_head_variant i y ys
      rw [deleteOps_cons2, hz]
      exact canonOps_head_ok x z rest h1
        (by rw [canonPair_congr x y z hvar]; exact h2)
        (by rw [← hz]; exact ih h3)

theorem canon_insertOps (u : List Char) (l : List Operation)
    (h : canonOps l = true) (hu : u ≠ []) : canonOps (insertOps u l) = true := by
  induction l with
  | nil => simpa [insertOps, canonOps, opNonZero] using hu
  | cons x xs ih =>
    cases xs with
    | nil =>
      cases x with
      | Retain k =>
        simp only [canonOps, opNonZero] at h
        simp [insertOps, canonOps, opNonZero, canonPair, h, hu]
      | Delete k =>
        simp only [canonOps, opNonZero] at h
        simp [insertOps, canonOps, opNonZero, canonPair, h, hu]
      | Insert t =>
        simp [insertOps, canonOps, opNonZero]
        exact Or.inr hu
    | cons y ys =>
      cases ys with
      | nil =>
        obtain ⟨h1, h2, h3⟩ := canonOps_cons2_parts x y [] h
        cases x <;> cases y <;>
          simp_all [insertOps, canonOps, opNonZero, canonPair]
      | cons z zs =>
        obtain ⟨h1, h2, h3⟩ := canonOps_cons2_parts x y (z :: zs) h
        obtain ⟨w, rest, hw, hvar⟩ := insertOps_head_variant u y z zs
        rw [insertOps_cons3, hw]
        exact canonOps_head_ok x w rest h1
          (by rw [canonPair_congr x y w hvar]; exact h2)
          (by rw [← hw]; exact ih h3)

theorem addOp_canon (p : Operation) (l : List Operation)
    (h : canonOps l = true) : canonOps (addOp p l) = true := by
  cases p with
  | Retain i =>
    by_cases hz : i = 0
    · simpa [addOp, hz] using h
    · simpa [addOp, hz] using canon_retainOps i l h hz
  | Delete i =>
    by_cases hz : i = 0
    · simpa [addOp, hz] using h
    · simpa [addOp, hz] using canon_deleteOps i l h hz
  | Insert u =>
    by_cases hz : u = []
    · simpa [addOp, hz] using h
    · simpa [addOp, hz] using canon_insertOps u l h hz

theorem foldl_add_canon (l : List Operation) (o : TextOperation)
    (h : canonOps o.ops = true) : canonOps (l.foldl TextOperation.add o).ops = true := by
  induction l generalizing o with
  | nil => simpa using h
  | cons p t ih =>
    rw [List.foldl_cons]
    exact ih (o.add p) (by rw [add_ops]; exact addOp_canon p o.ops h)

@[simp] theorem fromOps_canon (l : List Operation) :
    canonOps (fromOps l).ops = true :=
  foldl_add_canon l TextOperation.default rfl

theorem fromOps_canonical (l : List Operation) : CanonicalEdit (fromOps l) := by
  refine ⟨fromOps_canon l, ?_, ?_⟩ <;> simp

/-! ### Compose loop: success, lengths and semantics -/

theorem nz_retain (i : Nat) : opNonZero (Operation.Retain i) = true ↔ i ≠ 0 := by
  simp [opNonZero]

theorem nz_delete (i : Nat) : opNonZero (Operation.Delete i) = true ↔ i ≠ 0 := by
  simp [opNonZero]

theorem nz_insert (u : List Char) : opNonZero (Operation.Insert u) = true ↔ u ≠ [] := by
  simp [opNonZero]

theorem length_pos_of_ne_nil (u : List Char) (h : u ≠ []) : 1 ≤ u.length := by
  cases u with
  | nil => exact absurd rfl h
  | cons c cs => simp

theorem composeGo_spec (fuel : Nat) : ∀ (l1 l2 : List Operation),
    opsWeight l1 + opsWeight l2 < fuel →
    l1.all opNonZero = true → l2.all opNonZero = true →
    opsTargetLen l1 = opsBaseLen l2 →
    ∃ r, composeGo fuel l1 l2 = some r ∧
      opsBaseLen r = opsBaseLen l1 ∧ opsTargetLen r = opsTargetLen l2 ∧
      ∀ s : List Char, opsBaseLen l1 ≤ s.length →
        applyOps r s = applyOps l2 (applyOps l1 s) := by
  induction fuel with
  | zero => intro l1 l2 hw _ _ _; omega
  | succ n ih =>
    intro l1 l2 hw hnz1 hnz2 hlen
    cases l1 with
    | nil =>
      cases l2 with
      | nil => exact ⟨[], rfl, by simp, by simp, fun s _ => by simp⟩
      | cons y t2 =>
        simp only [List.all_cons, Bool.and_eq_true] at hnz2
        cases y with
        | Insert v =>
          simp only [opsWeight_cons, opWeight] at hw
          simp only [opsTargetLen_nil, opsBaseLen_cons, opBase] at hlen
          obtain ⟨r, hr, hb, ht, hs⟩ := ih [] t2 (by simp; omega) (by simp) hnz2.2
            (by simp; omega)
          refine ⟨Operation.Insert v :: r, ?_, ?_, ?_, ?_⟩
          · simp [composeGo, hr]
          · simpa [opBase] using hb
          · simp only [opsTargetLen_cons, opTarget]; omega
          · intro s hls
            simp only [applyOps_insert, applyOps_nil]
            rw [hs s (by simpa using hls)]
            simp
        | Retain j =>
          rw [nz_retain] at hnz2
          simp only [opsTargetLen_nil, opsBaseLen_cons, opBase] at hlen
          exact absurd hlen (by omega)
        | Delete j =>
          rw [nz_delete] at hnz2
          simp only [opsTargetLen_nil, opsBaseLen_cons, opBase] at hlen
          exact absurd hlen (by omega)
    | cons x t1 =>
      simp only [List.all_cons, Bool.and_eq_true] at hnz1
      cases x with
      | Delete i =>
        simp only [opsWeight_cons, opWeight] at hw
        simp only [opsTargetLen_cons, opTarget] at hlen
        obtain ⟨r, hr, hb, ht, hs⟩ := ih t1 l2 (by omega) hnz1.2 hnz2 (by omega)
        refine ⟨Operation.Delete i :: r, ?_, ?_, ?_, ?_⟩
        · simp [composeGo, hr]
        · simp only [opsBaseLen_cons, opBase]; omega
        · simpa [opTarget] using ht
        · intro s hls
          simp only [opsBaseLen_cons, opBase] at hls
          simp only [applyOps_delete]
          exact hs (s.drop i) (by simp [List.length_drop]; omega)
      | Retain i =>
        rw [nz_retain] at hnz1
        cases l2 with
        | nil =>
          simp only [opsTargetLen_cons, opTarget, opsBaseLen_nil] at hlen
          exact absurd hlen (by omega)
        | cons y t2 =>
          simp only [List.all_cons, Bool.and_eq_true] at hnz2
          cases y with
          | Insert v =>
            simp only [opsWeight_cons, opWeight] at hw
            simp only [opsTargetLen_cons, opsBaseLen_cons, opTarget, opBase] at hlen
            obtain ⟨r, hr, hb, ht, hs⟩ :=
              ih (Operation.Retain i :: t1) t2
                (by simp only [opsWeight_cons, opWeight]; omega)
                (by simp [List.all_cons, nz_retain, hnz1.1, hnz1.2]) hnz2.2
                (by simp only [opsTargetLen_cons, opTarget, opsBaseLen_cons, opBase]; omega)
            refine ⟨Operation.Insert v :: r, ?_, ?_, ?_, ?_⟩
            · simp [composeGo, hr]
            · simpa [opBase] using hb
            · simp only [opsTargetLen_cons, opTarget]; omega
            · intro s hls
              simp only [applyOps_insert, applyOps_retain, hs s hls]
          | Retain j =>
            rw [nz_retain] at hnz2
            simp only [opsWeight_cons, opWeight] at hw
            simp only [opsTargetLen_cons, opsBaseLen_cons, opTarget, opBase] at hlen
            rcases Nat.lt_trichotomy i j with hij | hij | hij
            · obtain ⟨r, hr, hb, ht, hs⟩ :=
                ih t1 (Operation.Retain (j - i) :: t2)
                  (by simp only [opsWeight_cons, opWeight]; omega)
                  hnz1.2
                  (by simp [List.all_cons, nz_retain, hnz2.2]; omega)
                  (by simp only [opsTargetLen_cons, opTarget, opsBaseLen_cons, opBase]; omega)
              simp only [opsTargetLen_cons, opTarget] at ht
              refine ⟨Operation.Retain i :: r, ?_, ?_, ?_, ?_⟩
              · simp [composeGo, hij, hr]
              · simp only [opsBaseLen_cons, opBase]; omega
              · simp only [opsTargetLen_cons, opTarget]; omega
              · intro s hls
                simp only [opsBaseLen_cons, opBase] at hls
                have hX := hs (s.drop i) (by simp [List.length_drop]; omega)
                have hlt : (s.take i).length = i := by simp; omega
                simp only [applyOps_retain]
                rw [hX]
                simp only [applyOps_retain]
                rw [List.take_append_eq_append_take, List.drop_append_eq_append_drop,
                  hlt, @List.take_of_length_le Char j (s.take i) (by rw [hlt]; omega),
                  @List.drop_eq_nil_of_le Char (s.take i) j (by rw [hlt]; omega)]
                simp [List.append_assoc]
            · subst hij
              obtain ⟨r, hr, hb, ht, hs⟩ :=
                ih t1 t2 (by omega) hnz1.2 hnz2.2 (by omega)
              refine ⟨Operation.Retain i :: r, ?_, ?_, ?_, ?_⟩
              · simp [composeGo, hr]
              · simp only [opsBaseLen_cons, opBase]; omega
              · simp only [opsTargetLen_cons, opTarget]; omega
              · intro s hls
                simp only [opsBaseLen_cons, opBase] at hls
                have hX := hs (s.drop i) (by simp [List.length_drop]; omega)
                have hlt : (s.take i).length = i := by simp; omega
                simp only [applyOps_retain]
                rw [hX]
                rw [List.take_append_eq_append_take, List.drop_append_eq_append_drop,
                  hlt, @List.take_of_length_le Char i (s.take i) (le_of_eq hlt),
                  @List.drop_eq_nil_of_le Char (s.take i) i (le_of_eq hlt)]
                simp
            · obtain ⟨r, hr, hb, ht, hs⟩ :=
                ih (Operation.Retain (i - j) :: t1) t2
                  (by simp only [opsWeight_cons, opWeight]; omega)
                  (by simp [List.all_cons, nz_retain, hnz1.2]; omega)
                  hnz2.2
                  (by simp only [opsTargetLen_cons, opTarget, opsBaseLen_cons, opBase]; omega)
              simp only [opsBaseLen_cons, opBase] at hb
              refine ⟨Operation.Retain j :: r, ?_, ?_, ?_, ?_⟩
              · have hij2 : ¬ i < j := by omega
                simp [composeGo, hij, hij2, hr]
              · simp only [opsBaseLen_cons, opBase]; omega
              · simp only [opsTargetLen_cons, opTarget]; omega
              · intro s hls
                simp only [opsBaseLen_cons, opBase] at hls
                have hX := hs (s.drop j) (by simp [List.length_drop, opsBaseLen_cons, opBase]; omega)
                have hlt : (s.take i).length = i := by simp; omega
                simp only [applyOps_retain] at hX ⊢
                rw [List.drop_drop, show j + (i - j) = i from by omega] at hX
                rw [hX]
                rw [List.take_append_eq_append_take, List.drop_append_eq_append_drop,
                  hlt, List.take_take, show j ⊓ i = j from by omega,
                  show j - i = 0 from by omega, List.drop_take]
                simp
          | Delete j =>
            rw [nz_delete] at hnz2
            simp only [opsWeight_cons, opWeight] at hw
            simp only [opsTargetLen_cons, opsBaseLen_cons, opTarget, opBase] at hlen
            rcases Nat.lt_trichotomy i j with hij | hij | hij
            · obtain ⟨r, hr, hb, ht, hs⟩ :=
                ih t1 (Operation.Delete (j - i) :: t2)
                  (by simp only [opsWeight_cons, opWeight]; omega)
                  hnz1.2
                  (by simp [List.all_cons, nz_delete, hnz2.2]; omega)
                  (by simp only [opsTargetLen_cons, opTarget, opsBaseLen_cons, opBase]; omega)
              simp only [opsTargetLen_cons, opTarget] at ht
              refine ⟨Operation.Delete i :: r, ?_, ?_, ?_, ?_⟩
              · simp [composeGo, hij, hr]
              · simp only [opsBaseLen_cons, opBase]; omega
              · simp only [opsTargetLen_cons, opTarget]; omega
              · intro s hls
                simp only [opsBaseLen_cons, opBase] at hls
                have hX := hs (s.drop i) (by simp [List.length_drop]; omega)
                have hlt : (s.take i).length = i := by simp; omega
                simp only [applyOps_delete, applyOps_retain] at hX ⊢
                rw [hX]
                rw [List.drop_append_eq_append_drop, hlt,
                  @List.drop_eq_nil_of_le Char (s.take i) j (by rw [hlt]; omega)]
                simp
            · subst hij
              obtain ⟨r, hr, hb, ht, hs⟩ :=
                ih t1 t2 (by omega) hnz1.2 hnz2.2 (by omega)
              refine ⟨Operation.Delete i :: r, ?_, ?_, ?_, ?_⟩
              · simp [composeGo, hr]
              · simp only [opsBaseLen_cons, opBase]; omega
              · simp only [opsTargetLen_cons, opTarget]; omega
              · intro s hls
                simp only [opsBaseLen_cons, opBase] at hls
                have hX := hs (s.drop i) (by simp [List.length_drop]; omega)
                have hlt : (s.take i).length = i := by simp; omega
                simp only [applyOps_delete, applyOps_retain] at hX ⊢
                rw [hX]
                rw [List.drop_append_eq_append_drop, hlt,
                  @List.drop_eq_nil_of_le Char (s.take i) i (le_of_eq hlt)]
                simp
            · obtain ⟨r, hr, hb, ht, hs⟩ :=
                ih (Operation.Retain (i - j) :: t1) t2
                  (by simp only [opsWeight_cons, opWeight]; omega)
                  (by simp [List.all_cons, nz_retain, hnz1.2]; omega)
                  hnz2.2
                  (by simp only [opsTargetLen_cons, opTarget, opsBaseLen_cons, opBase]; omega)
              simp only [opsBaseLen_cons, opBase] at hb
              refine ⟨Operation.Delete j :: r, ?_, ?_, ?_, ?_⟩
              · have hij2 : ¬ i < j := by omega
                simp [composeGo, hij, hij2, hr]
              · simp only [opsBaseLen_cons, opBase]; omega
              · simp only [opsTargetLen_cons, opTarget]; omega
              · intro s hls
                simp only [opsBaseLen_cons, opBase] at hls
                have hX := hs (s.drop j) (by simp [List.length_drop, opsBaseLen_cons, opBase]; omega)
                have hlt : (s.take i).length = i := by simp; omega
                simp only [applyOps_delete, applyOps_retain] at hX ⊢
                rw [List.drop_drop, show j + (i - j) = i from by omega] at hX
                rw [hX]
                rw [List.drop_append_eq_append_drop, hlt,
                  show j - i = 0 from by omega, List.drop_take]
                simp
      | Insert u =>
        rw [nz_insert] at hnz1
        have hu1 : 1 ≤ u.length := length_pos_of_ne_nil u hnz1.1
        cases l2 with
        | nil =>
          simp only [opsTargetLen_cons, opTarget, opsBaseLen_nil] at hlen
          exact absurd hlen (by omega)
        | cons y t2 =>
          simp only [List.all_cons, Bool.and_eq_true] at hnz2
          cases y with
          | Insert v =>
            simp only [opsWeight_cons, opWeight] at hw
            simp only [opsTargetLen_cons, opsBaseLen_cons, opTarget, opBase] at hlen
            obtain ⟨r, hr, hb, ht, hs⟩ :=
              ih (Operation.Insert u :: t1) t2
                (by simp only [opsWeight_cons, opWeight]; omega)
                (by simp [List.all_cons, nz_insert, hnz1.1, hnz1.2]) hnz2.2
                (by simp only [opsTargetLen_cons, opTarget, opsBaseLen_cons, opBase]; omega)
            refine ⟨Operation.Insert v :: r, ?_, ?_, ?_, ?_⟩
            · simp [composeGo, hr]
            · simpa [opBase] using hb
            · simp only [opsTargetLen_cons, opTarget]; omega
            · intro s hls
              simp only [applyOps_insert, hs s hls]
          | Retain j =>
            rw [nz_retain] at hnz2
            simp only [opsWeight_cons, opWeight] at hw
            simp only [opsTargetLen_cons, opsBaseLen_cons, opTarget, opBase] at hlen
            rcases Nat.lt_trichotomy u.length j with hij | hij | hij
            · obtain ⟨r, hr, hb, ht, hs⟩ :=
                ih t1 (Operation.Retain (j - u.length) :: t2)
                  (by simp only [opsWeight_cons, opWeight]; omega)
                  hnz1.2
                  (by simp [List.all_cons, nz_retain, hnz2.2]; omega)
                  (by simp only [opsTargetLen_cons, opTarget, opsBaseLen_cons, opBase]; omega)
              simp only [opsTargetLen_cons, opTarget] at ht
              refine ⟨Operation.Insert u :: r, ?_, ?_, ?_, ?_⟩
              · simp [composeGo, hij, hr]
              · simpa [opBase] using hb
              · simp only [opsTargetLen_cons, opTarget]; omega
              · intro s hls
                simp only [opsBaseLen_cons, opBase] at hls
                have hX := hs s (by omega)
                simp only [applyOps_insert, applyOps_retain] at hX ⊢
                rw [hX]
                rw [List.take_append_eq_append_take, List.drop_append_eq_append_drop,
                  @List.take_of_length_le Char j u (by omega),
                  @List.drop_eq_nil_of_le Char u j (by omega)]
                simp [List.append_assoc]
            · obtain ⟨r, hr, hb, ht, hs⟩ :=
                ih t1 t2 (by omega) hnz1.2 hnz2.2 (by omega)
              refine ⟨Operation.Insert u :: r, ?_, ?_, ?_, ?_⟩
              · have h1 : ¬ u.length < j := by omega
                have h2 : ¬ j < u.length := by omega
                simp [composeGo, h1, h2, hr]
              · simpa [opBase] using hb
              · simp only [opsTargetLen_cons, opTarget]; omega
              · intro s hls
                simp only [opsBaseLen_cons, opBase] at hls
                have hX := hs s (by omega)
                simp only [applyOps_insert, applyOps_retain] at hX ⊢
                rw [hX]
                rw [List.take_append_eq_append_take, List.drop_append_eq_append_drop,
                  @List.take_of_length_le Char j u (by omega),
                  @List.drop_eq_nil_of_le Char u j (by omega)]
                simp [hij]
            · obtain ⟨r, hr, hb, ht, hs⟩ :=
                ih (Operation.Insert (u.drop j) :: t1) t2
                  (by simp only [opsWeight_cons, opWeight, List.length_drop]; omega)
                  (by
                    simp only [List.all_cons, Bool.and_eq_true, nz_insert]
                    refine ⟨?_, hnz1.2⟩
                    intro hc
                    have := congrArg List.length hc
                    simp [List.length_drop] at this
                    omega)
                  hnz2.2
                  (by simp only [opsTargetLen_cons, opTarget, List.length_drop]; omega)
              simp only [opsBaseLen_cons, opBase] at hb
              refine ⟨Operation.Insert (u.take j) :: r, ?_, ?_, ?_, ?_⟩
              · have h1 : ¬ u.length < j := by omega
                simp [composeGo, h1, hij, hr]
              · simpa [opBase] using hb
              · simp only [opsTargetLen_cons, opTarget, List.length_take]
                omega
              · intro s hls
                simp only [opsBaseLen_cons, opBase] at hls
                have hX := hs s (by simpa [opBase] using hls)
                simp only [applyOps_insert, applyOps_retain] at hX ⊢
                rw [hX]
                rw [List.take_append_of_le_length (by omega),
                  List.drop_append_of_le_length (by omega)]
          | Delete j =>
            rw [nz_delete] at hnz2
            simp only [opsWeight_cons, opWeight] at hw
            simp only [opsTargetLen_cons, opsBaseLen_cons, opTarget, opBase] at hlen
            rcases Nat.lt_trichotomy u.length j with hij | hij | hij
            · obtain ⟨r, hr, hb, ht, hs⟩ :=
                ih t1 (Operation.Delete (j - u.length) :: t2)
                  (by simp only [opsWeight_cons, opWeight]; omega)
                  hnz1.2
                  (by simp [List.all_cons, nz_delete, hnz2.2]; omega)
                  (by simp only [opsTargetLen_cons, opTarget, opsBaseLen_cons, opBase]; omega)
              simp only [opsTargetLen_cons, opTarget] at ht
              refine ⟨r, ?_, ?_, ?_, ?_⟩
              · simp [composeGo, hij, hr]
              · simpa [opBase] using hb
              · simp only [opsTargetLen_cons, opTarget]; omega
              · intro s hls
                simp only [opsBaseLen_cons, opBase] at hls
                have hX := hs s (by omega)
                simp only [applyOps_insert, applyOps_delete] at hX ⊢
                rw [hX]
                rw [List.drop_append_eq_append_drop,
                  @List.drop_eq_nil_of_le Char u j (by omega)]
                simp
            · obtain ⟨r, hr, hb, ht, hs⟩ :=
                ih t1 t2 (by omega) hnz1.2 hnz2.2 (by omega)
              refine ⟨r, ?_, ?_, ?_, ?_⟩
              · have h1 : ¬ u.length < j := by omega
                have h2 : ¬ j < u.length := by omega
                simp [composeGo, h1, h2, hr]
              · simpa [opBase] using hb
              · simp only [opsTargetLen_cons, opTarget]; omega
              · intro s hls
                simp only [opsBaseLen_cons, opBase] at hls
                have hX := hs s (by omega)
                simp only [applyOps_insert, applyOps_delete] at hX ⊢
                rw [hX]
                rw [List.drop_append_eq_append_drop,
                  @List.drop_eq_nil_of_le Char u j (by omega)]
                simp [hij]
            · obtain ⟨r, hr, hb, ht, hs⟩ :=
                ih (Operation.Insert (u.drop j) :: t1) t2
                  (by simp only [opsWeight_cons, opWeight, List.length_drop]; omega)
                  (by
                    simp only [List.all_cons, Bool.and_eq_true, nz_insert]
                    refine ⟨?_, hnz1.2⟩
                    intro hc
                    have := congrArg List.length hc
                    simp [List.length_drop] at this
                    omega)
                  hnz2.2
                  (by simp only [opsTargetLen_cons, opTarget, List.length_drop]; omega)
              simp only [opsBaseLen_cons, opBase] at hb
              refine ⟨r, ?_, ?_, ?_, ?_⟩
              · have h1 : ¬ u.length < j := by omega
                simp [composeGo, h1, hij, hr]
              · simpa [opBase] using hb
              · simp only [opsTargetLen_cons, opTarget]; omega
              · intro s hls
                simp only [opsBaseLen_cons, opBase] at hls
                have hX := hs s (by simpa [opBase] using hls)
                simp only [applyOps_insert, applyOps_delete] at hX ⊢
                rw [hX]
                rw [List.drop_append_of_le_length (by omega)]

/-! ### Transform loop: success, lengths and semantic convergence -/

theorem transformGo_spec (fuel : Nat) : ∀ (l1 l2 : List Operation),
    opsWeight l1 + opsWeight l2 < fuel →
    l1.all opNonZero = true → l2.all opNonZero = true →
    opsBaseLen l1 = opsBaseLen l2 →
    ∃ r1 r2, transformGo fuel l1 l2 = some (r1, r2) ∧
      opsBaseLen r1 = opsTargetLen l2 ∧ opsBaseLen r2 = opsTargetLen l1 ∧
      opsTargetLen r1 = opsTargetLen r2 ∧
      ∀ s : List Char, opsBaseLen l1 ≤ s.length →
        applyOps r2 (applyOps l1 s) = applyOps r1 (applyOps l2 s) := by
  induction fuel with
  | zero => intro l1 l2 hw _ _ _; omega
  | succ n ih =>
    intro l1 l2 hw hnz1 hnz2 hlen
    cases l1 with
    | nil =>
      cases l2 with
      | nil => exact ⟨[], [], rfl, by simp, by simp, by simp, fun s _ => by simp⟩
      | cons y t2 =>
        simp only [List.all_cons, Bool.and_eq_true] at hnz2
        cases y with
        | Insert v =>
          simp only [opsWeight_cons, opWeight] at hw
          simp only [opsBaseLen_nil, opsBaseLen_cons, opBase] at hlen
          obtain ⟨r1, r2, hr, hb1, hb2, ht, hs⟩ := ih [] t2 (by simp; omega)
            (by simp) hnz2.2 (by simp; omega)
          refine ⟨Operation.Retain v.length :: r1, Operation.Insert v :: r2, ?_, ?_, ?_, ?_, ?_⟩
          · simp [transformGo, hr]
          · simp only [opsBaseLen_cons, opBase, opsTargetLen_cons, opTarget]; omega
          · simpa [opBase] using hb2
          · simp only [opsTargetLen_cons, opTarget]; omega
          · intro s hls
            have hX := hs s hls
            simp only [applyOps_nil] at hX
            simp only [applyOps_insert, applyOps_retain, applyOps_nil]
            rw [List.take_left, List.drop_left, hX]
        | Retain j =>
          rw [nz_retain] at hnz2
          simp only [opsBaseLen_nil, opsBaseLen_cons, opBase] at hlen
          exact absurd hlen.symm (by omega)
        | Delete j =>
          rw [nz_delete] at hnz2
          simp only [opsBaseLen_nil, opsBaseLen_cons, opBase] at hlen
          exact absurd hlen.symm (by omega)
    | cons x t1 =>
      simp only [List.all_cons, Bool.and_eq_true] at hnz1
      cases x with
      | Insert u =>
        simp only [opsWeight_cons, opWeight] at hw
        simp only [opsBaseLen_cons, opBase] at hlen
        obtain ⟨r1, r2, hr, hb1, hb2, ht, hs⟩ := ih t1 l2 (by omega) hnz1.2 hnz2
          (by omega)
        refine ⟨Operation.Insert u :: r1, Operation.Retain u.length :: r2, ?_, ?_, ?_, ?_, ?_⟩
        · simp [transformGo, hr]
        · simpa [opBase] using hb1
        · simp only [opsBaseLen_cons, opBase, opsTargetLen_cons, opTarget]; omega
        · simp only [opsTargetLen_cons, opTarget]; omega
        · intro s hls
          simp only [opsBaseLen_cons, opBase] at hls
          simp only [applyOps_insert, applyOps_retain]
          rw [List.take_left, List.drop_left, hs s (by omega)]
      | Retain i =>
        rw [nz_retain] at hnz1
        cases l2 with
        | nil =>
          simp only [opsBaseLen_cons, opBase, opsBaseLen_nil] at hlen
          exact absurd hlen (by omega)
        | cons y t2 =>
          simp only [List.all_cons, Bool.and_eq_true] at hnz2
          cases y with
          | Insert v =>
            simp only [opsWeight_cons, opWeight] at hw
            simp only [opsBaseLen_cons, opBase] at hlen
            obtain ⟨r1, r2, hr, hb1, hb2, ht, hs⟩ :=
              ih (Operation.Retain i :: t1) t2
                (by simp only [opsWeight_cons, opWeight]; omega)
                (by simp [List.all_cons, nz_retain, hnz1.1, hnz1.2]) hnz2.2
                (by simp only [opsBaseLen_cons, opBase]; omega)
            refine ⟨Operation.Retain v.length :: r1, Operation.Insert v :: r2, ?_, ?_, ?_, ?_, ?_⟩
            · simp [transformGo, hr]
            · simp only [opsBaseLen_cons, opBase, opsTargetLen_cons, opTarget]; omega
            · simpa [opBase] using hb2
            · simp only [opsTargetLen_cons, opTarget]; omega
            · intro s hls
              simp only [opsBaseLen_cons, opBase] at hls
              have hX := hs s (by simp only [opsBaseLen_cons, opBase]; omega)
              simp only [applyOps_insert, applyOps_retain] at hX ⊢
              rw [hX, List.take_left, List.drop_left]
          | Retain j =>
            rw [nz_retain] at hnz2
            simp only [opsWeight_cons, opWeight] at hw
            simp only [opsBaseLen_cons, opBase] at hlen
            rcases Nat.lt_trichotomy i j with hij | hij | hij
            · obtain ⟨r1, r2, hr, hb1, hb2, ht, hs⟩ :=
                ih t1 (Operation.Retain (j - i) :: t2)
                  (by simp only [opsWeight_cons, opWeight]; omega)
                  hnz1.2
                  (by simp [List.all_cons, nz_retain, hnz2.2]; omega)
                  (by simp only [opsBaseLen_cons, opBase]; omega)
              simp only [opsBaseLen_cons, opBase, opsTargetLen_cons, opTarget] at hb1 hb2 ht
              refine ⟨Operation.Retain i :: r1, Operation.Retain i :: r2, ?_, ?_, ?_, ?_, ?_⟩
              · simp [transformGo, hij, hr]
              · simp only [opsBaseLen_cons, opBase, opsTargetLen_cons, opTarget]; omega
              · simp only [opsBaseLen_cons, opBase, opsTargetLen_cons, opTarget]; omega
              · simp only [opsTargetLen_cons, opTarget]; omega
              · intro s hls
                simp only [opsBaseLen_cons, opBase] at hls
                have hX := hs (s.drop i)
                  (by simp only [List.length_drop, opsBaseLen_cons, opBase]; omega)
                have hlt : (s.take i).length = i := by simp; omega
                have hltj : (s.take j).length = j := by simp; omega
                simp only [applyOps_retain] at hX ⊢
                rw [List.drop_drop, show i + (j - i) = j from by omega] at hX
                rw [List.take_append_eq_append_take, List.drop_append_eq_append_drop, hlt,
                  @List.take_of_length_le Char i (s.take i) (le_of_eq hlt),
                  @List.drop_eq_nil_of_le Char (s.take i) i (le_of_eq hlt)]
                rw [List.take_append_eq_append_take, List.drop_append_eq_append_drop, hltj,
                  List.take_take, show i ⊓ j = i from by omega,
                  show i - j = 0 from by omega, List.drop_take]
                simp [hX]
            · subst hij
              obtain ⟨r1, r2, hr, hb1, hb2, ht, hs⟩ :=
                ih t1 t2 (by omega) hnz1.2 hnz2.2 (by omega)
              refine ⟨Operation.Retain i :: r1, Operation.Retain i :: r2, ?_, ?_, ?_, ?_, ?_⟩
              · simp [transformGo, hr]
              · simp only [opsBaseLen_cons, opBase, opsTargetLen_cons, opTarget]; omega
              · simp only [opsBaseLen_cons, opBase, opsTargetLen_cons, opTarget]; omega
              · simp only [opsTargetLen_cons, opTarget]; omega
              · intro s hls
                simp only [opsBaseLen_cons, opBase] at hls
                have hX := hs (s.drop i) (by simp only [List.length_drop, opsBaseLen_cons, opBase]; omega)
                have hlt : (s.take i).length = i := by simp; omega
                simp only [applyOps_retain] at hX ⊢
                rw [List.take_append_eq_append_take, List.drop_append_eq_append_drop, hlt,
                  @List.take_of_length_le Char i (s.take i) (le_of_eq hlt),
                  @List.drop_eq_nil_of_le Char (s.take i) i (le_of_eq hlt)]
                rw [List.take_append_eq_append_take, List.drop_append_eq_append_drop, hlt,
                  @List.take_of_length_le Char i (s.take i) (le_of_eq hlt),
                  @List.drop_eq_nil_of_le Char (s.take i) i (le_of_eq hlt)]
                simp [hX]
            · obtain ⟨r1, r2, hr, hb1, hb2, ht, hs⟩ :=
                ih (Operation.Retain (i - j) :: t1) t2
                  (by simp only [opsWeight_cons, opWeight]; omega)
                  (by simp [List.all_cons, nz_retain, hnz1.2]; omega)
                  hnz2.2
                  (by simp only [opsBaseLen_cons, opBase]; omega)
              simp only [opsBaseLen_cons, opBase, opsTargetLen_cons, opTarget] at hb1 hb2 ht
              refine ⟨Operation.Retain j :: r1, Operation.Retain j :: r2, ?_, ?_, ?_, ?_, ?_⟩
              · have hij2 : ¬ i < j := by omega
                simp [transformGo, hij, hij2, hr]
              · simp only [opsBaseLen_cons, opBase, opsTargetLen_cons, opTarget]; omega
              · simp only [opsBaseLen_cons, opBase, opsTargetLen_cons, opTarget]; omega
              · simp only [opsTargetLen_cons, opTarget]; omega
              · intro s hls
                simp only [opsBaseLen_cons, opBase] at hls
                have hX := hs (s.drop j) (by simp only [List.length_drop, opsBaseLen_cons, opBase]; omega)
                have hlt : (s.take i).length = i := by simp; omega
                have hltj : (s.take j).length = j := by simp; omega
                simp only [applyOps_retain] at hX ⊢
                rw [List.drop_drop, show j + (i - j) = i from by omega] at hX
                rw [List.take_append_eq_append_take, List.drop_append_eq_append_drop, hlt,
                  List.take_take, show j ⊓ i = j from by omega,
                  show j - i = 0 from by omega, List.drop_take]
                rw [List.take_append_eq_append_take, List.drop_append_eq_append_drop, hltj,
                  @List.take_of_length_le Char j (s.take j) (le_of_eq hltj),
                  @List.drop_eq_nil_of_le Char (s.take j) j (le_of_eq hltj)]
                simp [hX]
          | Delete j =>
            rw [nz_delete] at hnz2
            simp only [opsWeight_cons, opWeight] at hw
            simp only [opsBaseLen_cons, opBase] at hlen
            rcases Nat.lt_trichotomy i j with hij | hij | hij
            · obtain ⟨r1, r2, hr, hb1, hb2, ht, hs⟩ :=
                ih t1 (Operation.Delete (j - i) :: t2)
                  (by simp only [opsWeight_cons, opWeight]; omega)
                  hnz1.2
                  (by simp [List.all_cons, nz_delete, hnz2.2]; omega)
                  (by simp only [opsBaseLen_cons, opBase]; omega)
              simp only [opsBaseLen_cons, opBase, opsTargetLen_cons, opTarget] at hb1 hb2 ht
              refine ⟨r1, Operation.Delete i :: r2, ?_, ?_, ?_, ?_, ?_⟩
              · simp [transformGo, hij, hr]
              · simp only [opsBaseLen_cons, opBase, opsTargetLen_cons, opTarget]; omega
              · simp only [opsBaseLen_cons, opBase, opsTargetLen_cons, opTarget]; omega
              · simp only [opsTargetLen_cons, opTarget]; omega
              · intro s hls
                simp only [opsBaseLen_cons, opBase] at hls
                have hX := hs (s.drop i) (by simp only [List.length_drop, opsBaseLen_cons, opBase]; omega)
                have hlt : (s.take i).length = i := by simp; omega
                simp only [applyOps_retain, applyOps_delete] at hX ⊢
                rw [List.drop_drop, show i + (j - i) = j from by omega] at hX
                rw [List.drop_append_eq_append_drop, hlt,
                  @List.drop_eq_nil_of_le Char (s.take i) i (le_of_eq hlt)]
                simp [hX]
            · subst hij
              obtain ⟨r1, r2, hr, hb1, hb2, ht, hs⟩ :=
                ih t1 t2 (by omega) hnz1.2 hnz2.2 (by omega)
              refine ⟨r1, Operation.Delete i :: r2, ?_, ?_, ?_, ?_, ?_⟩
              · simp [transformGo, hr]
              · simp only [opsBaseLen_cons, opBase, opsTargetLen_cons, opTarget]; omega
              · simp only [opsBaseLen_cons, opBase, opsTargetLen_cons, opTarget]; omega
              · simp only [opsTargetLen_cons, opTarget]; omega
              · intro s hls
                simp only [opsBaseLen_cons, opBase] at hls
                have hX := hs (s.drop i) (by simp only [List.length_drop, opsBaseLen_cons, opBase]; omega)
                have hlt : (s.take i).length = i := by simp; omega
                simp only [applyOps_retain, applyOps_delete] at hX ⊢
                rw [List.drop_append_eq_append_drop, hlt,
                  @List.drop_eq_nil_of_le Char (s.take i) i (le_of_eq hlt)]
                simp [hX]
            · obtain ⟨r1, r2, hr, hb1, hb2, ht, hs⟩ :=
                ih (Operation.Retain (i - j) :: t1) t2
                  (by simp only [opsWeight_cons, opWeight]; omega)
                  (by simp [List.all_cons, nz_retain, hnz1.2]; omega)
                  hnz2.2
                  (by simp only [opsBaseLen_cons, opBase]; omega)
              simp only [opsBaseLen_cons, opBase, opsTargetLen_cons, opTarget] at hb1 hb2 ht
              refine ⟨r1, Operation.Delete j :: r2, ?_, ?_, ?_, ?_, ?_⟩
              · have hij2 : ¬ i < j := by omega
                simp [transformGo, hij, hij2, hr]
              · simp only [opsBaseLen_cons, opBase, opsTargetLen_cons, opTarget]; omega
              · simp only [opsBaseLen_cons, opBase, opsTargetLen_cons, opTarget]; omega
              · simp only [opsTargetLen_cons, opTarget]; omega
              · intro s hls
                simp only [opsBaseLen_cons, opBase] at hls
                have hX := hs (s.drop j) (by simp only [List.length_drop, opsBaseLen_cons, opBase]; omega)
                have hlt : (s.take i).length = i := by simp; omega
                simp only [applyOps_retain, applyOps_delete] at hX ⊢
                rw [List.drop_drop, show j + (i - j) = i from by omega] at hX
                rw [List.drop_append_eq_append_drop, hlt,
                  show j - i = 0 from by omega, List.drop_take]
                simp [hX]
      | Delete i =>
        rw [nz_delete] at hnz1
        cases l2 with
        | nil =>
          simp only [opsBaseLen_cons, opBase, opsBaseLen_nil] at hlen
          exact absurd hlen (by omega)
        | cons y t2 =>
          simp only [List.all_cons, Bool.and_eq_true] at hnz2
          cases y with
          | Insert v =>
            simp only [opsWeight_cons, opWeight] at hw
            simp only [opsBaseLen_cons, opBase] at hlen
            obtain ⟨r1, r2, hr, hb1, hb2, ht, hs⟩ :=
              ih (Operation.Delete i :: t1) t2
                (by simp only [opsWeight_cons, opWeight]; omega)
                (by simp [List.all_cons, nz_delete, hnz1.1, hnz1.2]) hnz2.2
                (by simp only [opsBaseLen_cons, opBase]; omega)
            refine ⟨Operation.Retain v.length :: r1, Operation.Insert v :: r2, ?_, ?_, ?_, ?_, ?_⟩
            · simp [transformGo, hr]
            · simp only [opsBaseLen_cons, opBase, opsTargetLen_cons, opTarget]; omega
            · simpa [opBase] using hb2
            · simp only [opsTargetLen_cons, opTarget]; omega
            · intro s hls
              simp only [opsBaseLen_cons, opBase] at hls
              have hX := hs s (by simp only [opsBaseLen_cons, opBase]; omega)
              simp only [applyOps_insert, applyOps_delete, applyOps_retain] at hX ⊢
              rw [hX, List.take_left, List.drop_left]
          | Retain j =>
            rw [nz_retain] at hnz2
            simp only [opsWeight_cons, opWeight] at hw
            simp only [opsBaseLen_cons, opBase] at hlen
            rcases Nat.lt_trichotomy i j with hij | hij | hij
            · obtain ⟨r1, r2, hr, hb1, hb2, ht, hs⟩ :=
                ih t1 (Operation.Retain (j - i) :: t2)
                  (by simp only [opsWeight_cons, opWeight]; omega)
                  hnz1.2
                  (by simp [List.all_cons, nz_retain, hnz2.2]; omega)
                  (by simp only [opsBaseLen_cons, opBase]; omega)
              simp only [opsBaseLen_cons, opBase, opsTargetLen_cons, opTarget] at hb1 hb2 ht
              refine ⟨Operation.Delete i :: r1, r2, ?_, ?_, ?_, ?_, ?_⟩
              · simp [transformGo, hij, hr]
              · simp only [opsBaseLen_cons, opBase, opsTargetLen_cons, opTarget]; omega
              · simp only [opsBaseLen_cons, opBase, opsTargetLen_cons, opTarget]; omega
              · simp only [opsTargetLen_cons, opTarget]; omega
              · intro s hls
                simp only [opsBaseLen_cons, opBase] at hls
                have hX := hs (s.drop i) (by simp only [List.length_drop, opsBaseLen_cons, opBase]; omega)
                have hltj : (s.take j).length = j := by simp; omega
                simp only [applyOps_retain, applyOps_delete] at hX ⊢
                rw [List.drop_drop, show i + (j - i) = j from by omega] at hX
                rw [List.drop_append_eq_append_drop, hltj, List.drop_take,
                  show i - j = 0 from by omega]
                simp [hX]
            · subst hij
              obtain ⟨r1, r2, hr, hb1, hb2, ht, hs⟩ :=
                ih t1 t2 (by omega) hnz1.2 hnz2.2 (by omega)
              refine ⟨Operation.Delete i :: r1, r2, ?_, ?_, ?_, ?_, ?_⟩
              · simp [transformGo, hr]
              · simp only [opsBaseLen_cons, opBase, opsTargetLen_cons, opTarget]; omega
              · simp only [opsBaseLen_cons, opBase, opsTargetLen_cons, opTarget]; omega
              · simp only [opsTargetLen_cons, opTarget]; omega
              · intro s hls
                simp only [opsBaseLen_cons, opBase] at hls
                have hX := hs (s.drop i) (by simp only [List.length_drop, opsBaseLen_cons, opBase]; omega)
                have hlt : (s.take i).length = i := by simp; omega
                simp only [applyOps_retain, applyOps_delete] at hX ⊢
                rw [List.drop_append_eq_append_drop, hlt,
                  @List.drop_eq_nil_of_le Char (s.take i) i (le_of_eq hlt)]
                simp [hX]
            · obtain ⟨r1, r2, hr, hb1, hb2, ht, hs⟩ :=
                ih (Operation.Delete (i - j) :: t1) t2
                  (by simp only [opsWeight_cons, opWeight]; omega)
                  (by simp [List.all_cons, nz_delete, hnz1.2]; omega)
                  hnz2.2
                  (by simp only [opsBaseLen_cons, opBase]; omega)
              simp only [opsBaseLen_cons, opBase, opsTargetLen_cons, opTarget] at hb1 hb2 ht
              refine ⟨Operation.Delete j :: r1, r2, ?_, ?_, ?_, ?_, ?_⟩
              · have hij2 : ¬ i < j := by omega
                simp [transformGo, hij, hij2, hr]
              · simp only [opsBaseLen_cons, opBase, opsTargetLen_cons, opTarget]; omega
              · simp only [opsBaseLen_cons, opBase, opsTargetLen_cons, opTarget]; omega
              · simp only [opsTargetLen_cons, opTarget]; omega
              · intro s hls
                simp only [opsBaseLen_cons, opBase] at hls
                have hX := hs (s.drop j) (by simp only [List.length_drop, opsBaseLen_cons, opBase]; omega)
                have hltj : (s.take j).length = j := by simp; omega
                simp only [applyOps_retain, applyOps_delete] at hX ⊢
                rw [List.drop_drop, show j + (i - j) = i from by omega] at hX
                rw [List.drop_append_eq_append_drop, hltj,
                  @List.drop_eq_nil_of_le Char (s.take j) j (le_of_eq hltj),
                  show j - j = 0 from by omega]
                simp [hX]
          | Delete j =>
            rw [nz_delete] at hnz2
            simp only [opsWeight_cons, opWeight] at hw
            simp only [opsBaseLen_cons, opBase] at hlen
            rcases Nat.lt_trichotomy i j with hij | hij | hij
            · obtain ⟨r1, r2, hr, hb1, hb2, ht, hs⟩ :=
                ih t1 (Operation.Delete (j - i) :: t2)
                  (by simp only [opsWeight_cons, opWeight]; omega)
                  hnz1.2
                  (by simp [List.all_cons, nz_delete, hnz2.2]; omega)
                  (by simp only [opsBaseLen_cons, opBase]; omega)
              simp only [opsBaseLen_cons, opBase, opsTargetLen_cons, opTarget] at hb1 hb2 ht
              refine ⟨r1, r2, ?_, ?_, ?_, ?_, ?_⟩
              · simp [transformGo, hij, hr]
              · simp only [opsBaseLen_cons, opBase, opsTargetLen_cons, opTarget]; omega
              · simp only [opsBaseLen_cons, opBase, opsTargetLen_cons, opTarget]; omega
              · omega
              · intro s hls
                simp only [opsBaseLen_cons, opBase] at hls
                have hX := hs (s.drop i) (by simp only [List.length_drop, opsBaseLen_cons, opBase]; omega)
                simp only [applyOps_delete] at hX ⊢
                rw [List.drop_drop, show i + (j - i) = j from by omega] at hX
                exact hX
            · subst hij
              obtain ⟨r1, r2, hr, hb1, hb2, ht, hs⟩ :=
                ih t1 t2 (by omega) hnz1.2 hnz2.2 (by omega)
              refine ⟨r1, r2, ?_, ?_, ?_, ?_, ?_⟩
              · simp [transformGo, hr]
              · simp only [opsBaseLen_cons, opBase, opsTargetLen_cons, opTarget]; omega
              · simp only [opsBaseLen_cons, opBase, opsTargetLen_cons, opTarget]; omega
              · omega
              · intro s hls
                simp only [opsBaseLen_cons, opBase] at hls
                have hX := hs (s.drop i) (by simp only [List.length_drop, opsBaseLen_cons, opBase]; omega)
                simpa using hX
            · obtain ⟨r1, r2, hr, hb1, hb2, ht, hs⟩ :=
                ih (Operation.Delete (i - j) :: t1) t2
                  (by simp only [opsWeight_cons, opWeight]; omega)
                  (by simp [List.all_cons, nz_delete, hnz1.2]; omega)
                  hnz2.2
                  (by simp only [opsBaseLen_cons, opBase]; omega)
              simp only [opsBaseLen_cons, opBase, opsTargetLen_cons, opTarget] at hb1 hb2 ht
              refine ⟨r1, r2, ?_, ?_, ?_, ?_, ?_⟩
              · have hij2 : ¬ i < j := by omega
                simp [transformGo, hij, hij2, hr]
              · simp only [opsBaseLen_cons, opBase, opsTargetLen_cons, opTarget]; omega
              · simp only [opsBaseLen_cons, opBase, opsTargetLen_cons, opTarget]; omega
              · omega
              · intro s hls
                simp only [opsBaseLen_cons, opBase] at hls
                have hX := hs (s.drop j) (by simp only [List.length_drop, opsBaseLen_cons, opBase]; omega)
                simp only [applyOps_delete] at hX ⊢
                rw [List.drop_drop, show j + (i - j) = i from by omega] at hX
                exact hX

/-! ### Invert lemmas -/

theorem invertOps_base (l : List Operation) (s : List Char) :
    opsBaseLen (invertOps l s) = opsTargetLen l := by
  induction l generalizing s with
  | nil => simp [invertOps]
  | cons x t ih =>
    cases x <;> simp [invertOps, ih, opBase, opTarget]

theorem invertOps_target_le (l : List Operation) (s : List Char) :
    opsTargetLen (invertOps l s) ≤ opsBaseLen l := by
  induction l generalizing s with
  | nil => simp [invertOps]
  | cons x t ih =>
    cases x with
    | Retain n =>
      simp only [invertOps, opsTargetLen_cons, opTarget, opsBaseLen_cons, opBase]
      have := ih (s.drop n)
      omega
    | Delete d =>
      simp only [invertOps, opsTargetLen_cons, opTarget, opsBaseLen_cons, opBase,
        List.length_take]
      have := ih (s.drop d)
      omega
    | Insert u =>
      simp only [invertOps, opsTargetLen_cons, opTarget, opsBaseLen_cons, opBase]
      have := ih s
      omega

theorem invertOps_target_eq (l : List Operation) (s : List Char)
    (h : opsBaseLen l ≤ s.length) :
    opsTargetLen (invertOps l s) = opsBaseLen l := by
  induction l generalizing s with
  | nil => simp [invertOps]
  | cons x t ih =>
    cases x with
    | Retain n =>
      simp only [opsBaseLen_cons, opBase] at h
      simp only [invertOps, opsTargetLen_cons, opTarget, opsBaseLen_cons, opBase]
      have := ih (s.drop n) (by simp [List.length_drop]; omega)
      omega
    | Delete d =>
      simp only [opsBaseLen_cons, opBase] at h
      simp only [invertOps, opsTargetLen_cons, opTarget, opsBaseLen_cons, opBase,
        List.length_take]
      have := ih (s.drop d) (by simp [List.length_drop]; omega)
      omega
    | Insert u =>
      simp only [opsBaseLen_cons, opBase] at h
      simp only [invertOps, opsTargetLen_cons, opTarget, opsBaseLen_cons, opBase]
      have := ih s (by omega)
      omega

theorem invertOps_sem (l : List Operation) (s : List Char)
    (h : opsBaseLen l = s.length) :
    applyOps (invertOps l s) (applyOps l s) = s := by
  induction l generalizing s with
  | nil =>
    simp only [opsBaseLen_nil] at h
    cases s with
    | nil => rfl
    | cons c cs => simp at h
  | cons x t ih =>
    cases x with
    | Retain n =>
      simp only [opsBaseLen_cons, opBase] at h
      have hn : n ≤ s.length := by omega
      have hlt : (s.take n).length = n := by simp; omega
      simp only [invertOps, applyOps_retain]
      rw [List.take_append_eq_append_take, List.drop_append_eq_append_drop, hlt,
        @List.take_of_length_le Char n (s.take n) (le_of_eq hlt),
        @List.drop_eq_nil_of_le Char (s.take n) n (le_of_eq hlt)]
      simp only [Nat.sub_self, List.take_zero, List.append_nil, List.drop_zero,
        List.nil_append]
      rw [ih (s.drop n) (by simp [List.length_drop]; omega)]
      exact List.take_append_drop n s
    | Delete d =>
      simp only [opsBaseLen_cons, opBase] at h
      simp only [invertOps, applyOps_delete, applyOps_insert]
      rw [ih (s.drop d) (by simp [List.length_drop]; omega)]
      exact List.take_append_drop d s
    | Insert u =>
      simp only [opsBaseLen_cons, opBase] at h
      simp only [invertOps, applyOps_insert, applyOps_delete]
      rw [List.drop_left]
      exact ih s (by omega)

/-! ### Canonical-form uniqueness: helpers -/

theorem canonOps_tail (x : Operation) (t : List Operation)
    (h : canonOps (x :: t) = true) : canonOps t = true := by
  cases t with
  | nil => rfl
  | cons y t' => exact (canonOps_cons2_parts x y t' h).2.2

theorem canonOps_head_nz (x : Operation) (t : List Operation)
    (h : canonOps (x :: t) = true) : opNonZero x = true := by
  cases t with
  | nil => simpa [canonOps] using h
  | cons y t' => exact (canonOps_cons2_parts x y t' h).1

theorem canonPair_congr_left (x x' y : Operation) (h : variant x' = variant x) :
    canonPair x' y = canonPair x y := by
  cases x <;> cases x' <;> cases y <;> simp_all [variant, canonPair]

theorem canonOps_replace_head (x x' : Operation) (t : List Operation)
    (h : canonOps (x :: t) = true) (hvar : variant x' = variant x)
    (hnz : opNonZero x' = true) : canonOps (x' :: t) = true := by
  cases t with
  | nil => simpa [canonOps] using hnz
  | cons z t' =>
    obtain ⟨_, h2, h3⟩ := canonOps_cons2_parts x z t' h
    exact canonOps_head_ok x' z t' hnz
      (by rw [canonPair_congr_left x x' z hvar]; exact h2) h3

theorem canonOps_after_delete (m : Nat) (t2 : List Operation)
    (h : canonOps (Operation.Delete m :: t2) = true) :
    t2 = [] ∨ ∃ k t2', t2 = Operation.Retain k :: t2' ∧ k ≠ 0 := by
  cases t2 with
  | nil => exact Or.inl rfl
  | cons y t' =>
    obtain ⟨_, h2, h3⟩ := canonOps_cons2_parts (Operation.Delete m) y t' h
    cases y with
    | Retain k =>
      exact Or.inr ⟨k, t', rfl, by simpa [nz_retain] using canonOps_head_nz _ _ h3⟩
    | Delete k => simp [canonPair] at h2
    | Insert v => simp [canonPair] at h2

theorem ext_opsTargetLen (l1 l2 : List Operation)
    (hb : opsBaseLen l1 = opsBaseLen l2)
    (H : ∀ s : List Char, s.length = opsBaseLen l1 → applyOps l1 s = applyOps l2 s) :
    opsTargetLen l1 = opsTargetLen l2 := by
  have h := H (List.replicate (opsBaseLen l1) '0') (by simp)
  have e1 := applyOps_length l1 (List.replicate (opsBaseLen l1) '0') (by simp)
  have e2 := applyOps_length l2 (List.replicate (opsBaseLen l1) '0') (by simp [hb])
  rw [h] at e1
  rw [e1] at e2
  exact e2

theorem head_insert (u : List Char) (t : List Operation) (s : List Char)
    (h : u ≠ []) : (applyOps (Operation.Insert u :: t) s).head? = u.head? := by
  cases u with
  | nil => exact absurd rfl h
  | cons c cs => simp

theorem head_retain (n : Nat) (t : List Operation) (s : List Char)
    (hn : n ≠ 0) (hs : s ≠ []) :
    (applyOps (Operation.Retain n :: t) s).head? = s.head? := by
  cases s with
  | nil => exact absurd rfl hs
  | cons c cs =>
    cases n with
    | zero => exact absurd rfl hn
    | succ m => simp

theorem take_replicate_append (n : Nat) (c : Char) (r : List Char) :
    (List.replicate n c ++ r).take n = List.replicate n c := by
  have := List.take_left (List.replicate n c) r
  rwa [List.length_replicate] at this

theorem drop_replicate_append (n : Nat) (c : Char) (r : List Char) :
    (List.replicate n c ++ r).drop n = r := by
  have := List.drop_left (List.replicate n c) r
  rwa [List.length_replicate] at this

theorem take_replicate_append_ge (n m : Nat) (c : Char) (r : List Char)
    (h : n ≤ m) :
    (List.replicate n c ++ r).take m = List.replicate n c ++ r.take (m - n) := by
  rw [List.take_append_eq_append_take, List.length_replicate,
    List.take_of_length_le (by simp [List.length_replicate, h])]

theorem drop_replicate_append_ge (n m : Nat) (c : Char) (r : List Char)
    (h : n ≤ m) :
    (List.replicate n c ++ r).drop m = r.drop (m - n) := by
  rw [List.drop_append_eq_append_drop, List.length_replicate, List.drop_replicate,
    show n - m = 0 from by omega]
  simp

theorem replicate_ne_nil (n : Nat) (c : Char) (h : n ≠ 0) :
    List.replicate n c ≠ [] := by
  cases n with
  | zero => exact absurd rfl h
  | succ m => simp

theorem drop_ne_nil (l : List Char) (n : Nat) (h : n < l.length) :
    l.drop n ≠ [] := by
  have : 0 < (l.drop n).length := by simp [List.length_drop]; omega
  exact List.length_pos.mp this

theorem retain_cancel (i j : Nat) (t1 t2 : List Operation) (hij : i ≤ j)
    (H : ∀ s : List Char, s.length = opsBaseLen (Operation.Retain i :: t1) →
      applyOps (Operation.Retain i :: t1) s = applyOps (Operation.Retain j :: t2) s) :
    ∀ s' : List Char, s'.length = opsBaseLen t1 →
      applyOps t1 s' = s'.take (j - i) ++ applyOps t2 (s'.drop (j - i)) := by
  intro s' hs'
  have hH := H (List.replicate i '0' ++ s')
    (by simp only [List.length_append, List.length_replicate, opsBaseLen_cons, opBase]; omega)
  rw [applyOps_retain, applyOps_retain, take_replicate_append, drop_replicate_append,
    take_replicate_append_ge i j '0' s' hij, drop_replicate_append_ge i j '0' s' hij,
    List.append_assoc] at hH
  exact List.append_cancel_left hH

theorem delete_cancel (i j : Nat) (t1 t2 : List Operation) (hij : i ≤ j)
    (H : ∀ s : List Char, s.length = opsBaseLen (Operation.Delete i :: t1) →
      applyOps (Operation.Delete i :: t1) s = applyOps (Operation.Delete j :: t2) s) :
    ∀ s' : List Char, s'.length = opsBaseLen t1 →
      applyOps t1 s' = applyOps t2 (s'.drop (j - i)) := by
  intro s' hs'
  have hH := H (List.replicate i '0' ++ s')
    (by simp only [List.length_append, List.length_replicate, opsBaseLen_cons, opBase]; omega)
  rw [applyOps_delete, applyOps_delete, drop_replicate_append,
    drop_replicate_append_ge i j '0' s' hij] at hH
  exact hH

theorem insert_cancel (u v : List Char) (t1 t2 : List Operation)
    (huv : u.length ≤ v.length)
    (H : ∀ s : List Char, s.length = opsBaseLen t1 →
      u ++ applyOps t1 s = v ++ applyOps t2 s) :
    u = v.take u.length ∧
      ∀ s' : List Char, s'.length = opsBaseLen t1 →
        applyOps t1 s' = v.drop u.length ++ applyOps t2 s' := by
  have key : ∀ s' : List Char, s'.length = opsBaseLen t1 →
      u = v.take u.length ∧ applyOps t1 s' = v.drop u.length ++ applyOps t2 s' := by
    intro s' hs'
    have hH := H s' hs'
    rw [show v = v.take u.length ++ v.drop u.length from (List.take_append_drop _ v).symm,
      List.append_assoc] at hH
    exact List.append_inj hH (by simp [List.length_take]; omega)
  exact ⟨(key (List.replicate (opsBaseLen t1) '0') (by simp)).1,
    fun s' hs' => (key s' hs').2⟩

theorem ins_ret_absurd (u : List Char) (t1 : List Operation) (j : Nat)
    (t2 : List Operation)
    (hc1 : canonOps (Operation.Insert u :: t1) = true)
    (hc2 : canonOps (Operation.Retain j :: t2) = true)
    (hb : opsBaseLen (Operation.Insert u :: t1) = opsBaseLen (Operation.Retain j :: t2))
    (H : ∀ s : List Char, s.length = opsBaseLen (Operation.Insert u :: t1) →
      applyOps (Operation.Insert u :: t1) s = applyOps (Operation.Retain j :: t2) s) :
    False := by
  have hu : u ≠ [] := by simpa [nz_insert] using canonOps_head_nz _ _ hc1
  have hj : j ≠ 0 := by simpa [nz_retain] using canonOps_head_nz _ _ hc2
  simp only [opsBaseLen_cons, opBase] at hb
  have hb1 : 1 ≤ opsBaseLen (Operation.Insert u :: t1) := by
    simp only [opsBaseLen_cons, opBase]; omega
  have h0 := congrArg List.head?
    (H (List.replicate (opsBaseLen (Operation.Insert u :: t1)) '0') (by simp))
  rw [head_insert u t1 _ hu,
    head_retain j t2 _ hj (replicate_ne_nil _ '0' (by omega)),
    List.head?_replicate, if_neg (by omega)] at h0
  have h1 := congrArg List.head?
    (H ('1' :: List.replicate (opsBaseLen (Operation.Insert u :: t1) - 1) '0')
      (by simp only [List.length_cons, List.length_replicate]; omega))
  rw [head_insert u t1 _ hu, head_retain j t2 _ hj (by simp),
    List.head?_cons, h0] at h1
  exact absurd h1 (by decide)

theorem ins_del_absurd (u : List Char) (t1 : List Operation) (j : Nat)
    (t2 : List Operation)
    (hc1 : canonOps (Operation.Insert u :: t1) = true)
    (hc2 : canonOps (Operation.Delete j :: t2) = true)
    (hb : opsBaseLen (Operation.Insert u :: t1) = opsBaseLen (Operation.Delete j :: t2))
    (H : ∀ s : List Char, s.length = opsBaseLen (Operation.Insert u :: t1) →
      applyOps (Operation.Insert u :: t1) s = applyOps (Operation.Delete j :: t2) s) :
    False := by
  have hu : u ≠ [] := by simpa [nz_insert] using canonOps_head_nz _ _ hc1
  have hu1 : 1 ≤ u.length := length_pos_of_ne_nil u hu
  rcases canonOps_after_delete j t2 hc2 with h2 | ⟨k, t2', h2, hk⟩
  · subst h2
    have := ext_opsTargetLen _ _ hb H
    simp only [opsTargetLen_cons, opTarget, opsTargetLen_nil] at this
    omega
  · subst h2
    simp only [opsBaseLen_cons, opBase] at hb
    have hbge : j + 1 ≤ opsBaseLen (Operation.Insert u :: t1) := by
      simp only [opsBaseLen_cons, opBase]; omega
    have h0 := congrArg List.head?
      (H (List.replicate (opsBaseLen (Operation.Insert u :: t1)) '0') (by simp))
    rw [head_insert u t1 _ hu, applyOps_delete, List.drop_replicate,
      head_retain k _ _ hk (replicate_ne_nil _ '0' (by omega)),
      List.head?_replicate, if_neg (by omega)] at h0
    have h1 := congrArg List.head?
      (H (List.replicate j '0' ++ '1' ::
          List.replicate (opsBaseLen (Operation.Insert u :: t1) - j - 1) '0')
        (by simp only [List.length_append, List.length_replicate, List.length_cons]; omega))
    rw [head_insert u t1 _ hu, applyOps_delete, drop_replicate_append,
      head_retain k _ _ hk (by simp), List.head?_cons, h0] at h1
    exact absurd h1 (by decide)

theorem ret_del_absurd (i : Nat) (t1 : List Operation) (j : Nat)
    (t2 : List Operation)
    (hc1 : canonOps (Operation.Retain i :: t1) = true)
    (hc2 : canonOps (Operation.Delete j :: t2) = true)
    (hb : opsBaseLen (Operation.Retain i :: t1) = opsBaseLen (Operation.Delete j :: t2))
    (H : ∀ s : List Char, s.length = opsBaseLen (Operation.Retain i :: t1) →
      applyOps (Operation.Retain i :: t1) s = applyOps (Operation.Delete j :: t2) s) :
    False := by
  have hi : i ≠ 0 := by simpa [nz_retain] using canonOps_head_nz _ _ hc1
  have hj : j ≠ 0 := by simpa [nz_delete] using canonOps_head_nz _ _ hc2
  rcases canonOps_after_delete j t2 hc2 with h2 | ⟨k, t2', h2, hk⟩
  · subst h2
    have := ext_opsTargetLen _ _ hb H
    simp only [opsTargetLen_cons, opTarget, opsTargetLen_nil] at this
    omega
  · subst h2
    simp only [opsBaseLen_cons, opBase] at hb
    have hbge : j + 1 ≤ opsBaseLen (Operation.Retain i :: t1) := by
      simp only [opsBaseLen_cons, opBase]; omega
    have h1 := congrArg List.head?
      (H ('1' :: List.replicate (opsBaseLen (Operation.Retain i :: t1) - 1) '0')
        (by simp only [List.length_cons, List.length_replicate]; omega))
    rw [head_retain i t1 _ hi (by simp), applyOps_delete,
      show j = (j - 1) + 1 from by omega, List.drop_succ_cons, List.drop_replicate,
      head_retain k _ _ hk (replicate_ne_nil _ '0' (by omega)),
      List.head?_replicate, if_neg (by omega), List.head?_cons] at h1
    exact absurd h1 (by decide)

/-- Canonical op lists are determined by their base length and their action on
all strings of that length. -/
theorem canonOps_unique (N : Nat) : ∀ l1 l2 : List Operation,
    l1.length + l2.length ≤ N →
    canonOps l1 = true → canonOps l2 = true →
    opsBaseLen l1 = opsBaseLen l2 →
    (∀ s : List Char, s.length = opsBaseLen l1 → applyOps l1 s = applyOps l2 s) →
    l1 = l2 := by
  induction N with
  | zero =>
    intro l1 l2 hN _ _ _ _
    cases l1 with
    | nil =>
      cases l2 with
      | nil => rfl
      | cons y t2 => simp at hN
    | cons x t1 => simp at hN
  | succ n ih =>
    intro l1 l2 hN hc1 hc2 hb H
    have H2 : ∀ s : List Char, s.length = opsBaseLen l2 →
        applyOps l2 s = applyOps l1 s :=
      fun s hs => (H s (by rw [hb]; exact hs)).symm
    cases l1 with
    | nil =>
      cases l2 with
      | nil => rfl
      | cons y t2 =>
        exfalso
        have hynz := canonOps_head_nz _ _ hc2
        cases y with
        | Retain m =>
          rw [nz_retain] at hynz
          simp only [opsBaseLen_nil, opsBaseLen_cons, opBase] at hb
          omega
        | Delete m =>
          rw [nz_delete] at hynz
          simp only [opsBaseLen_nil, opsBaseLen_cons, opBase] at hb
          omega
        | Insert v =>
          rw [nz_insert] at hynz
          have hT := ext_opsTargetLen _ _ hb H
          simp only [opsTargetLen_nil, opsTargetLen_cons, opTarget] at hT
          have := length_pos_of_ne_nil v hynz
          omega
    | cons x t1 =>
      cases l2 with
      | nil =>
        exfalso
        have hxnz := canonOps_head_nz _ _ hc1
        cases x with
        | Retain m =>
          rw [nz_retain] at hxnz
          simp only [opsBaseLen_nil, opsBaseLen_cons, opBase] at hb
          omega
        | Delete m =>
          rw [nz_delete] at hxnz
          simp only [opsBaseLen_nil, opsBaseLen_cons, opBase] at hb
          omega
        | Insert u =>
          rw [nz_insert] at hxnz
          have hT := ext_opsTargetLen _ _ hb H
          simp only [opsTargetLen_nil, opsTargetLen_cons, opTarget] at hT
          have := length_pos_of_ne_nil u hxnz
          omega
      | cons y t2 =>
        simp only [List.length_cons] at hN
        cases x with
        | Retain i =>
          cases y with
          | Retain j =>
            have hinz : i ≠ 0 := by simpa [nz_retain] using canonOps_head_nz _ _ hc1
            have hjnz : j ≠ 0 := by simpa [nz_retain] using canonOps_head_nz _ _ hc2
            rcases Nat.lt_trichotomy i j with hij | hij | hij
            · exfalso
              have heq := ih t1 (Operation.Retain (j - i) :: t2)
                (by simp only [List.length_cons]; omega)
                (canonOps_tail _ _ hc1)
                (canonOps_replace_head (Operation.Retain j) (Operation.Retain (j - i)) t2
                  hc2 rfl (by rw [nz_retain]; omega))
                (by simp only [opsBaseLen_cons, opBase] at hb ⊢; omega)
                (fun s' hs' => by
                  rw [applyOps_retain]
                  exact retain_cancel i j t1 t2 (by omega) H s' hs')
              rw [heq] at hc1
              have := (canonOps_cons2_parts _ _ _ hc1).2.1
              simp [canonPair] at this
            · subst hij
              have heq := ih t1 t2
                (by omega)
                (canonOps_tail _ _ hc1) (canonOps_tail _ _ hc2)
                (by simp only [opsBaseLen_cons, opBase] at hb ⊢; omega)
                (fun s' hs' => by
                  have := retain_cancel i i t1 t2 (le_refl i) H s' hs'
                  simpa using this)
              rw [heq]
            · exfalso
              have heq := ih t2 (Operation.Retain (i - j) :: t1)
                (by simp only [List.length_cons]; omega)
                (canonOps_tail _ _ hc2)
                (canonOps_replace_head (Operation.Retain i) (Operation.Retain (i - j)) t1
                  hc1 rfl (by rw [nz_retain]; omega))
                (by simp only [opsBaseLen_cons, opBase] at hb ⊢; omega)
                (fun s' hs' => by
                  rw [applyOps_retain]
                  exact retain_cancel j i t2 t1 (by omega) H2 s' hs')
              rw [heq] at hc2
              have := (canonOps_cons2_parts _ _ _ hc2).2.1
              simp [canonPair] at this
          | Delete j =>
            exact (ret_del_absurd i t1 j t2 hc1 hc2 hb H).elim
          | Insert v =>
            exact (ins_ret_absurd v t2 i t1 hc2 hc1 hb.symm H2).elim
        | Delete i =>
          cases y with
          | Retain j =>
            exact (ret_del_absurd j t2 i t1 hc2 hc1 hb.symm H2).elim
          | Delete j =>
            have hinz : i ≠ 0 := by simpa [nz_delete] using canonOps_head_nz _ _ hc1
            have hjnz : j ≠ 0 := by simpa [nz_delete] using canonOps_head_nz _ _ hc2
            rcases Nat.lt_trichotomy i j with hij | hij | hij
            · exfalso
              have heq := ih t1 (Operation.Delete (j - i) :: t2)
                (by simp only [List.length_cons]; omega)
                (canonOps_tail _ _ hc1)
                (canonOps_replace_head (Operation.Delete j) (Operation.Delete (j - i)) t2
                  hc2 rfl (by rw [nz_delete]; omega))
                (by simp only [opsBaseLen_cons, opBase] at hb ⊢; omega)
                (fun s' hs' => by
                  rw [applyOps_delete]
                  exact delete_cancel i j t1 t2 (by omega) H s' hs')
              rw [heq] at hc1
              have := (canonOps_cons2_parts _ _ _ hc1).2.1
              simp [canonPair] at this
            · subst hij
              have heq := ih t1 t2
                (by omega)
                (canonOps_tail _ _ hc1) (canonOps_tail _ _ hc2)
                (by simp only [opsBaseLen_cons, opBase] at hb ⊢; omega)
                (fun s' hs' => by
                  have := delete_cancel i i t1 t2 (le_refl i) H s' hs'
                  simpa using this)
              rw [heq]
            · exfalso
              have heq := ih t2 (Operation.Delete (i - j) :: t1)
                (by simp only [List.length_cons]; omega)
                (canonOps_tail _ _ hc2)
                (canonOps_replace_head (Operation.Delete i) (Operation.Delete (i - j)) t1
                  hc1 rfl (by rw [nz_delete]; omega))
                (by simp only [opsBaseLen_cons, opBase] at hb ⊢; omega)
                (fun s' hs' => by
                  rw [applyOps_delete]
                  exact delete_cancel j i t2 t1 (by omega) H2 s' hs')
              rw [heq] at hc2
              have := (canonOps_cons2_parts _ _ _ hc2).2.1
              simp [canonPair] at this
          | Insert v =>
            exact (ins_del_absurd v t2 i t1 hc2 hc1 hb.symm H2).elim
        | Insert u =>
          cases y with
          | Retain j =>
            exact (ins_ret_absurd u t1 j t2 hc1 hc2 hb H).elim
          | Delete j =>
            exact (ins_del_absurd u t1 j t2 hc1 hc2 hb H).elim
          | Insert v =>
            have hunz : u ≠ [] := by simpa [nz_insert] using canonOps_head_nz _ _ hc1
            have hvnz : v ≠ [] := by simpa [nz_insert] using canonOps_head_nz _ _ hc2
            have hbt : opsBaseLen t1 = opsBaseLen t2 := by
              simpa [opsBaseLen_cons, opBase] using hb
            have HI : ∀ s : List Char, s.length = opsBaseLen t1 →
                u ++ applyOps t1 s = v ++ applyOps t2 s := by
              intro s hs
              have := H s (by simp only [opsBaseLen_cons, opBase]; omega)
              simpa using this
            rcases Nat.lt_trichotomy u.length v.length with huv | huv | huv
            · exfalso
              obtain ⟨hpre, hext⟩ := insert_cancel u v t1 t2 (by omega) HI
              have heq := ih t1 (Operation.Insert (v.drop u.length) :: t2)
                (by simp only [List.length_cons]; omega)
                (canonOps_tail _ _ hc1)
                (canonOps_replace_head (Operation.Insert v) (Operation.Insert (v.drop u.length))
                  t2 hc2 rfl
                  (by rw [nz_insert]; exact drop_ne_nil v u.length (by omega)))
                (by simp only [opsBaseLen_cons, opBase]; omega)
                (fun s' hs' => by
                  rw [applyOps_insert]
                  exact hext s' hs')
              rw [heq] at hc1
              have := (canonOps_cons2_parts _ _ _ hc1).2.1
              simp [canonPair] at this
            · obtain ⟨hpre, hext⟩ := insert_cancel u v t1 t2 (by omega) HI
              have huveq : u = v := by
                rw [hpre, huv, List.take_length]
              have heq := ih t1 t2
                (by omega)
                (canonOps_tail _ _ hc1) (canonOps_tail _ _ hc2)
                hbt
                (fun s' hs' => by
                  have := hext s' hs'
                  rw [huv, List.drop_length] at this
                  simpa using this)
              rw [huveq, heq]
            · exfalso
              have HI2 : ∀ s : List Char, s.length = opsBaseLen t2 →
                  v ++ applyOps t2 s = u ++ applyOps t1 s :=
                fun s hs => (HI s (by omega)).symm
              obtain ⟨hpre, hext⟩ := insert_cancel v u t2 t1 (by omega) HI2
              have heq := ih t2 (Operation.Insert (u.drop v.length) :: t1)
                (by simp only [List.length_cons]; omega)
                (canonOps_tail _ _ hc2)
                (canonOps_replace_head (Operation.Insert u) (Operation.Insert (u.drop v.length))
                  t1 hc1 rfl
                  (by rw [nz_insert]; exact drop_ne_nil u v.length (by omega)))
                (by simp only [opsBaseLen_cons, opBase]; omega)
                (fun s' hs' => by
                  rw [applyOps_insert]
                  exact hext s' hs')
              rw [heq] at hc2
              have := (canonOps_cons2_parts _ _ _ hc2).2.1
              simp [canonPair] at this

/-! ### Glue: struct-level operator specifications -/

theorem canonOps_all_nz (l : List Operation) (h : canonOps l = true) :
    l.all opNonZero = true := by
  induction l with
  | nil => rfl
  | cons x t ih =>
    rw [List.all_cons, Bool.and_eq_true]
    exact ⟨canonOps_head_nz x t h, ih (canonOps_tail x t h)⟩

theorem eq_of_fields (o1 o2 : TextOperation) (h1 : o1.ops = o2.ops)
    (h2 : o1.base_len = o2.base_len) (h3 : o1.target_len = o2.target_len) :
    o1 = o2 := by
  cases o1
  cases o2
  simp_all

theorem compose_eq_some (a b ab : TextOperation)
    (h : a.compose b = some ab) :
    a.target_len = b.base_len ∧ ∃ r, composeOps a.ops b.ops = some r ∧ ab = fromOps r := by
  unfold TextOperation.compose at h
  split at h
  · rcases Option.map_eq_some'.mp h with ⟨r, hr, hab⟩
    exact ⟨by assumption, r, hr, hab.symm⟩
  · exact absurd h (by simp)

theorem transform_eq_some (a b : TextOperation) (p : TextOperation × TextOperation)
    (h : a.transform b = some p) :
    a.base_len = b.base_len ∧ ∃ r1 r2, transformOps a.ops b.ops = some (r1, r2) ∧
      p = (fromOps r1, fromOps r2) := by
  unfold TextOperation.transform at h
  split at h
  · rcases Option.map_eq_some'.mp h with ⟨⟨r1, r2⟩, hr, hp⟩
    exact ⟨by assumption, r1, r2, hr, hp.symm⟩
  · exact absurd h (by simp)

/-- Struct-level compose specification: success, lengths, canonicity and
semantics for canonical inputs with matching lengths. -/
theorem compose_spec (a b : TextOperation) (ha : CanonicalEdit a)
    (hb : CanonicalEdit b) (hlen : a.target_len = b.base_len) :
    ∃ ab, a.compose b = some ab ∧ ab.base_len = a.base_len ∧
      ab.target_len = b.target_len ∧ CanonicalEdit ab ∧
      ∀ s : List Char, s.length = a.base_len →
        applyOps ab.ops s = applyOps b.ops (applyOps a.ops s) := by
  obtain ⟨r, hr, hrb, hrt, hs⟩ :=
    composeGo_spec (opsWeight a.ops + opsWeight b.ops + 1) a.ops b.ops
      (by omega)
      (canonOps_all_nz a.ops ha.1) (canonOps_all_nz b.ops hb.1)
      (by rw [← ha.2.2, ← hb.2.1]; exact hlen)
  refine ⟨fromOps r, ?_, ?_, ?_, fromOps_canonical r, ?_⟩
  · unfold TextOperation.compose
    rw [if_pos hlen]
    unfold composeOps
    rw [hr]
    rfl
  · rw [fromOps_base, hrb, ← ha.2.1]
  · rw [fromOps_target, hrt, ← hb.2.2]
  · intro s hls
    rw [fromOps_sem]
    exact hs s (by rw [← ha.2.1]; omega)

/-- Struct-level transform specification: success, the length postconditions
and the semantic convergence property for canonical inputs with equal base
lengths. -/
theorem transform_spec (a b : TextOperation) (ha : CanonicalEdit a)
    (hb : CanonicalEdit b) (hlen : a.base_len = b.base_len) :
    ∃ a' b', a.transform b = some (a', b') ∧
      a'.base_len = b.target_len ∧ b'.base_len = a.target_len ∧
      a'.target_len = b'.target_len ∧ CanonicalEdit a' ∧ CanonicalEdit b' ∧
      ∀ s : List Char, s.length = a.base_len →
        applyOps b'.ops (applyOps a.ops s) = applyOps a'.ops (applyOps b.ops s) := by
  obtain ⟨r1, r2, hr, hb1, hb2, ht, hs⟩ :=
    transformGo_spec (opsWeight a.ops + opsWeight b.ops + 1) a.ops b.ops
      (by omega)
      (canonOps_all_nz a.ops ha.1) (canonOps_all_nz b.ops hb.1)
      (by rw [← ha.2.1, ← hb.2.1]; exact hlen)
  refine ⟨fromOps r1, fromOps r2, ?_, ?_, ?_, ?_, fromOps_canonical r1,
    fromOps_canonical r2, ?_⟩
  · unfold TextOperation.transform
    rw [if_pos hlen]
    unfold transformOps
    rw [hr]
    rfl
  · rw [fromOps_base, hb1, ← hb.2.2]
  · rw [fromOps_base, hb2, ← ha.2.2]
  · rw [fromOps_target, fromOps_target, ht]
  · intro s hls
    rw [fromOps_sem, fromOps_sem]
    exact hs s (by rw [← ha.2.1]; omega)

/-! ### Claim theorems -/

/-- C1: Convergence law.  For every pair of canonically built Edits `a`, `b`
with `a.base_len = b.base_len`, `transform` succeeds with `(a', b')`,
both `compose a b'` and `compose b a'` succeed, the two composed Edits are
structurally equal, and applying either to any string of `a.base_len`
characters yields the same result. -/
theorem transform_convergence (a b : TextOperation)
    (ha : CanonicalEdit a) (hb : CanonicalEdit b)
    (hlen : a.base_len = b.base_len) :
    ∃ a' b' ab ba, a.transform b = some (a', b') ∧
      a.compose b' = some ab ∧ b.compose a' = some ba ∧ ab = ba ∧
      ∀ s : List Char, s.length = a.base_len → ab.apply s = ba.apply s := by
  obtain ⟨a', b', htr, hab1, hbb1, htt, hca, hcb, hsem⟩ := transform_spec a b ha hb hlen
  obtain ⟨ab, hab, habb, habt, habc, habs⟩ := compose_spec a b' ha hcb (by rw [hbb1])
  obtain ⟨ba, hba, hbab, hbat, hbac, hbas⟩ := compose_spec b a' hb hca (by rw [hab1])
  have hops : ab.ops = ba.ops := by
    apply canonOps_unique (ab.ops.length + ba.ops.length) ab.ops ba.ops (le_refl _)
      habc.1 hbac.1
    · rw [← habc.2.1, ← hbac.2.1, habb, hbab, hlen]
    · intro s hs
      have hs' : s.length = a.base_len := by rw [hs, ← habc.2.1]; exact habb
      rw [habs s hs', hbas s (by rw [hs', hlen])]
      exact hsem s hs'
  have heq : ab = ba := eq_of_fields ab ba hops (by rw [habb, hbab, hlen])
    (by rw [habt, hbat, htt])
  exact ⟨a', b', ab, ba, htr, hab, hba, heq, fun s _ => by rw [heq]⟩

/-- Witness for C1 at a concrete pair of edits. -/
theorem transform_convergence_witness :
    CanonicalEdit (fromOps [Operation.Retain 1, Operation.Insert ['z']]) ∧
    CanonicalEdit (fromOps [Operation.Delete 1]) ∧
    (fromOps [Operation.Retain 1, Operation.Insert ['z']]).base_len =
      (fromOps [Operation.Delete 1]).base_len ∧
    (∃ a' b' ab ba,
      (fromOps [Operation.Retain 1, Operation.Insert ['z']]).transform
        (fromOps [Operation.Delete 1]) = some (a', b') ∧
      (fromOps [Operation.Retain 1, Operation.Insert ['z']]).compose b' = some ab ∧
      (fromOps [Operation.Delete 1]).compose a' = some ba ∧ ab = ba ∧
      ∀ s : List Char,
        s.length = (fromOps [Operation.Retain 1, Operation.Insert ['z']]).base_len →
        ab.apply s = ba.apply s) :=
  ⟨by decide, by decide, by decide,
    transform_convergence _ _ (by decide) (by decide) (by decide)⟩

/-- C2: Compose law.  For canonically built Edits with
`a.target_len = b.base_len`, `compose` succeeds; the result has `a`'s base
length and `b`'s target length, and applying it equals applying `a` then
`b`. -/
theorem compose_law (a b : TextOperation) (ha : CanonicalEdit a)
    (hb : CanonicalEdit b) (hlen : a.target_len = b.base_len) :
    ∃ ab, a.compose b = some ab ∧ ab.base_len = a.base_len ∧
      ab.target_len = b.target_len ∧
      ∀ s : List Char, s.length = a.base_len →
        (a.apply s).bind b.apply = ab.apply s := by
  obtain ⟨ab, hab, h1, h2, hc, hsem⟩ := compose_spec a b ha hb hlen
  refine ⟨ab, hab, h1, h2, ?_⟩
  intro s hls
  have hA : a.apply s = some (applyOps a.ops s) := by
    unfold TextOperation.apply
    rw [if_pos hls]
  have hAl : (applyOps a.ops s).length = a.target_len := by
    rw [applyOps_length a.ops s (by rw [← ha.2.1]; omega)]
    exact ha.2.2.symm
  have hB : b.apply (applyOps a.ops s) = some (applyOps b.ops (applyOps a.ops s)) := by
    unfold TextOperation.apply
    rw [if_pos (by rw [hAl, hlen])]
  rw [hA]
  show b.apply (applyOps a.ops s) = ab.apply s
  rw [hB]
  unfold TextOperation.apply
  rw [if_pos (by rw [hls, h1]), hsem s hls]

/-- Witness for C2 at the specification's S4 scenario. -/
theorem compose_law_witness :
    CanonicalEdit (fromOps [Operation.Retain 3, Operation.Insert ['d', 'e']]) ∧
    CanonicalEdit (fromOps [Operation.Delete 1, Operation.Retain 4]) ∧
    (fromOps [Operation.Retain 3, Operation.Insert ['d', 'e']]).target_len =
      (fromOps [Operation.Delete 1, Operation.Retain 4]).base_len ∧
    (∃ ab,
      (fromOps [Operation.Retain 3, Operation.Insert ['d', 'e']]).compose
        (fromOps [Operation.Delete 1, Operation.Retain 4]) = some ab ∧
      ab.base_len = (fromOps [Operation.Retain 3, Operation.Insert ['d', 'e']]).base_len ∧
      ab.target_len = (fromOps [Operation.Delete 1, Operation.Retain 4]).target_len ∧
      ∀ s : List Char,
        s.length = (fromOps [Operation.Retain 3, Operation.Insert ['d', 'e']]).base_len →
        ((fromOps [Operation.Retain 3, Operation.Insert ['d', 'e']]).apply s).bind
          (fromOps [Operation.Delete 1, Operation.Retain 4]).apply = ab.apply s) :=
  ⟨by decide, by decide, by decide,
    compose_law _ _ (by decide) (by decide) (by decide)⟩

/-- C3: Invert law.  For a canonically built Edit `o` and a string `s` of
`o.base_len` characters, `invert o s` swaps the two length fields and
applying it to `apply o s` restores `s`. -/
theorem invert_law (o : TextOperation) (s : List Char) (ho : CanonicalEdit o)
    (hlen : s.length = o.base_len) :
    (o.invert s).base_len = o.target_len ∧
      (o.invert s).target_len = o.base_len ∧
      ∃ t, o.apply s = some t ∧ (o.invert s).apply t = some s := by
  have hob : opsBaseLen o.ops = s.length := by rw [hlen, ho.2.1]
  refine ⟨?_, ?_, applyOps o.ops s, ?_, ?_⟩
  · unfold TextOperation.invert
    rw [fromOps_base, invertOps_base]
    exact ho.2.2.symm
  · unfold TextOperation.invert
    rw [fromOps_target, invertOps_target_eq o.ops s (by omega)]
    exact ho.2.1.symm
  · unfold TextOperation.apply
    rw [if_pos hlen]
  · have hg : (applyOps o.ops s).length = (o.invert s).base_len := by
      rw [applyOps_length o.ops s (by omega)]
      unfold TextOperation.invert
      rw [fromOps_base, invertOps_base]
    unfold TextOperation.apply
    rw [if_pos hg]
    unfold TextOperation.invert
    rw [fromOps_sem, invertOps_sem o.ops s hob]

/-- Witness for C3 at a concrete edit and string. -/
theorem invert_law_witness :
    CanonicalEdit (fromOps [Operation.Retain 1, Operation.Delete 1, Operation.Insert ['z']]) ∧
    (['a', 'b'] : List Char).length =
      (fromOps [Operation.Retain 1, Operation.Delete 1, Operation.Insert ['z']]).base_len ∧
    ((fromOps [Operation.Retain 1, Operation.Delete 1, Operation.Insert ['z']]).invert
        ['a', 'b']).base_len =
      (fromOps [Operation.Retain 1, Operation.Delete 1, Operation.Insert ['z']]).target_len ∧
    ((fromOps [Operation.Retain 1, Operation.Delete 1, Operation.Insert ['z']]).invert
        ['a', 'b']).target_len =
      (fromOps [Operation.Retain 1, Operation.Delete 1, Operation.Insert ['z']]).base_len ∧
    (∃ t, (fromOps [Operation.Retain 1, Operation.Delete 1, Operation.Insert ['z']]).apply
        ['a', 'b'] = some t ∧
      ((fromOps [Operation.Retain 1, Operation.Delete 1, Operation.Insert ['z']]).invert
        ['a', 'b']).apply t = some ['a', 'b']) := by
  have h := invert_law (fromOps [Operation.Retain 1, Operation.Delete 1, Operation.Insert ['z']])
    ['a', 'b'] (by decide) (by decide)
  exact ⟨by decide, by decide, h.1, h.2.1, h.2.2⟩

/-- C4: Canonical-form invariant.  Every Edit built by `fromOps`, every Edit
obtained from a canonical Edit through the builder entry points `retain`,
`delete`, `insert`, and every Edit output by `compose`, `transform` and
`invert` satisfies all four canonical-form invariants (no zero primitives, no
adjacent same-variant primitives, never a `Delete` immediately followed by an
`Insert`, and length fields equal to the analytic sums). -/
theorem builder_canonical :
    (∀ l : List Operation, CanonicalEdit (fromOps l)) ∧
    (∀ (o : TextOperation) (n : Nat), CanonicalEdit o → CanonicalEdit (o.retain n)) ∧
    (∀ (o : TextOperation) (n : Nat), CanonicalEdit o → CanonicalEdit (o.delete n)) ∧
    (∀ (o : TextOperation) (u : List Char), CanonicalEdit o → CanonicalEdit (o.insert u)) ∧
    (∀ a b ab : TextOperation, a.compose b = some ab → CanonicalEdit ab) ∧
    (∀ (a b : TextOperation) (p : TextOperation × TextOperation),
      a.transform b = some p → CanonicalEdit p.1 ∧ CanonicalEdit p.2) ∧
    (∀ (o : TextOperation) (s : List Char), CanonicalEdit (o.invert s)) := by
  refine ⟨fromOps_canonical, ?_, ?_, ?_, ?_, ?_, fun o s => fromOps_canonical _⟩
  · intro o n h
    by_cases hn : n = 0
    · simpa [TextOperation.retain, hn] using h
    · refine ⟨?_, ?_, ?_⟩ <;> simp only [TextOperation.retain, if_neg hn]
      · exact canon_retainOps n o.ops h.1 hn
      · rw [retainOps_base, h.2.1]
      · rw [retainOps_target, h.2.2]
  · intro o n h
    by_cases hn : n = 0
    · simpa [TextOperation.delete, hn] using h
    · refine ⟨?_, ?_, ?_⟩ <;> simp only [TextOperation.delete, if_neg hn]
      · exact canon_deleteOps n o.ops h.1 hn
      · rw [deleteOps_base, h.2.1]
      · rw [deleteOps_target, h.2.2]
  · intro o u h
    by_cases hu : u = []
    · simpa [TextOperation.insert, hu] using h
    · refine ⟨?_, ?_, ?_⟩ <;> simp only [TextOperation.insert, if_neg hu]
      · exact canon_insertOps u o.ops h.1 hu
      · rw [insertOps_base, h.2.1]
      · rw [insertOps_target, h.2.2]
  · intro a b ab h
    obtain ⟨-, r, -, hab⟩ := compose_eq_some a b ab h
    rw [hab]
    exact fromOps_canonical r
  · intro a b p h
    obtain ⟨-, r1, r2, -, hp⟩ := transform_eq_some a b p h
    rw [hp]
    exact ⟨fromOps_canonical r1, fromOps_canonical r2⟩

/-- Witness for C4: the builder preservation applied at a concrete edit. -/
theorem builder_canonical_witness :
    CanonicalEdit TextOperation.default ∧
      CanonicalEdit (TextOperation.default.retain 2) :=
  ⟨by decide, builder_canonical.2.1 TextOperation.default 2 (by decide)⟩

/-- C5: Apply semantics.  For a canonically built Edit `o` and a string of
exactly `o.base_len` characters, `apply` succeeds and returns the walk
`applyOps o.ops s` (Retain copies, Delete skips, Insert appends), whose
character count is exactly `o.target_len`. -/
theorem apply_semantics (o : TextOperation) (s : List Char)
    (ho : CanonicalEdit o) (hlen : s.length = o.base_len) :
    o.apply s = some (applyOps o.ops s) ∧
      (applyOps o.ops s).length = o.target_len := by
  constructor
  · unfold TextOperation.apply
    rw [if_pos hlen]
  · rw [applyOps_length o.ops s (by rw [← ho.2.1]; omega)]
    exact ho.2.2.symm

/-- Witness for C5 at a concrete edit and string. -/
theorem apply_semantics_witness :
    CanonicalEdit (fromOps [Operation.Retain 1, Operation.Insert ['a', 'b']]) ∧
    (['x'] : List Char).length =
      (fromOps [Operation.Retain 1, Operation.Insert ['a', 'b']]).base_len ∧
    ((fromOps [Operation.Retain 1, Operation.Insert ['a', 'b']]).apply ['x'] =
      some (applyOps (fromOps [Operation.Retain 1, Operation.Insert ['a', 'b']]).ops ['x']) ∧
    (applyOps (fromOps [Operation.Retain 1, Operation.Insert ['a', 'b']]).ops ['x']).length =
      (fromOps [Operation.Retain 1, Operation.Insert ['a', 'b']]).target_len) :=
  ⟨by decide, by decide,
    apply_semantics _ ['x'] (by decide) (by decide)⟩

/-- C6 counterexample: `invert`, unlike `apply`, performs no length check —
on a string whose character count differs from `base_len` it returns an Edit
normally instead of aborting, refuting the claim that both functions abort
fatally on mismatch. -/
theorem invert_no_length_check_cex :
    ([] : List Char).length ≠ (fromOps [Operation.Retain 1]).base_len ∧
      (fromOps [Operation.Retain 1]).invert [] = fromOps [Operation.Retain 1] := by
  decide

/-- C6 (amended): `apply` aborts fatally (returns `none`) whenever the input
string's character count differs from `base_len`; `invert` performs no such
check. -/
theorem apply_length_mismatch (o : TextOperation) (s : List Char)
    (h : s.length ≠ o.base_len) : o.apply s = none := by
  unfold TextOperation.apply
  rw [if_neg h]

/-- Witness for the amended C6 at a concrete edit and string. -/
theorem apply_length_mismatch_witness :
    ([] : List Char).length ≠ (fromOps [Operation.Retain 2]).base_len ∧
      (fromOps [Operation.Retain 2]).apply [] = none :=
  ⟨by decide, apply_length_mismatch _ [] (by decide)⟩

/-- C7: Insert tie-break.  In `transform` the left Edit's `Insert` is
processed before a simultaneous right-hand `Insert`, so for
`a = Insert "x", Retain 3` and `b = Retain 3, Insert "y"` the transformed
pair is `(Insert "x", Retain 4; Retain 4, Insert "y")` and both
cross-compositions map `"abc"` to `"xabcy"`. -/
theorem transform_insert_tiebreak :
    (fromOps [Operation.Insert ['x'], Operation.Retain 3]).transform
        (fromOps [Operation.Retain 3, Operation.Insert ['y']])
      = some (fromOps [Operation.Insert ['x'], Operation.Retain 4],
              fromOps [Operation.Retain 4, Operation.Insert ['y']]) ∧
    ∃ ab ba,
      (fromOps [Operation.Insert ['x'], Operation.Retain 3]).compose
          (fromOps [Operation.Retain 4, Operation.Insert ['y']]) = some ab ∧
      (fromOps [Operation.Retain 3, Operation.Insert ['y']]).compose
          (fromOps [Operation.Insert ['x'], Operation.Retain 4]) = some ba ∧
      ab = ba ∧
      ab.apply ['a', 'b', 'c'] = some ['x', 'a', 'b', 'c', 'y'] ∧
      ba.apply ['a', 'b', 'c'] = some ['x', 'a', 'b', 'c', 'y'] := by
  refine ⟨by decide,
    fromOps [Operation.Insert ['x'], Operation.Retain 3, Operation.Insert ['y']],
    fromOps [Operation.Insert ['x'], Operation.Retain 3, Operation.Insert ['y']],
    by decide, by decide, by decide, by decide, by decide⟩

/-- C8: `is_noop` is true exactly when the op list is empty or a single
`Retain`. -/
theorem is_noop_iff (o : TextOperation) :
    o.is_noop = true ↔ o.ops = [] ∨ ∃ n, o.ops = [Operation.Retain n] := by
  obtain ⟨ops, bl, tl⟩ := o
  simp only [TextOperation.is_noop]
  cases ops with
  | nil => simp
  | cons x xs =>
    cases xs with
    | nil => cases x <;> simp
    | cons y ys => simp

/-- C9: Implicit transform length postcondition.  For canonically built Edits
with equal base lengths, `transform` succeeds and the outputs satisfy
`a'.base_len = b.target_len`, `b'.base_len = a.target_len` and
`a'.target_len = b'.target_len`. -/
theorem transform_lengths (a b : TextOperation) (ha : CanonicalEdit a)
    (hb : CanonicalEdit b) (hlen : a.base_len = b.base_len) :
    ∃ a' b', a.transform b = some (a', b') ∧
      a'.base_len = b.target_len ∧ b'.base_len = a.target_len ∧
      a'.target_len = b'.target_len := by
  obtain ⟨a', b', htr, h1, h2, h3, -, -, -⟩ := transform_spec a b ha hb hlen
  exact ⟨a', b', htr, h1, h2, h3⟩

/-- Witness for C9 at a concrete pair of edits. -/
theorem transform_lengths_witness :
    CanonicalEdit (fromOps [Operation.Insert ['q']]) ∧
    CanonicalEdit (fromOps ([] : List Operation)) ∧
    (fromOps [Operation.Insert ['q']]).base_len =
      (fromOps ([] : List Operation)).base_len ∧
    (∃ a' b', (fromOps [Operation.Insert ['q']]).transform
        (fromOps ([] : List Operation)) = some (a', b') ∧
      a'.base_len = (fromOps ([] : List Operation)).target_len ∧
      b'.base_len = (fromOps [Operation.Insert ['q']]).target_len ∧
      a'.target_len = b'.target_len) :=
  ⟨by decide, by decide, by decide,
    transform_lengths _ _ (by decide) (by decide) (by decide)⟩

/-- C10: Implicit totality of invert.  `invert` performs no validation of its
string argument: for every Edit and every string it returns an Edit whose
`base_len` is the analytic target length of the op list; its `target_len`
never exceeds the analytic base length, with equality exactly guaranteed when
the string is long enough (a too-short string silently yields shorter
`Insert`s). -/
theorem invert_total (o : TextOperation) (s : List Char) :
    (o.invert s).base_len = opsTargetLen o.ops ∧
      (o.invert s).target_len ≤ opsBaseLen o.ops ∧
      (opsBaseLen o.ops ≤ s.length →
        (o.invert s).target_len = opsBaseLen o.ops) := by
  unfold TextOperation.invert
  refine ⟨?_, ?_, ?_⟩
  · rw [fromOps_base, invertOps_base]
  · rw [fromOps_target]
    exact invertOps_target_le o.ops s
  · intro h
    rw [fromOps_target]
    exact invertOps_target_eq o.ops s h

/-- Witness for C10: a `Delete 2` edit inverted against the one-character
string `"a"` returns normally with a one-character `Insert`. -/
theorem invert_total_witness :
    (((fromOps [Operation.Delete 2]).invert ['a']).base_len =
        opsTargetLen (fromOps [Operation.Delete 2]).ops ∧
      ((fromOps [Operation.Delete 2]).invert ['a']).target_len ≤
        opsBaseLen (fromOps [Operation.Delete 2]).ops ∧
      (opsBaseLen (fromOps [Operation.Delete 2]).ops ≤ (['a'] : List Char).length →
        ((fromOps [Operation.Delete 2]).invert ['a']).target_len =
          opsBaseLen (fromOps [Operation.Delete 2]).ops)) ∧
    ((fromOps [Operation.Delete 2]).invert ['a']).ops = [Operation.Insert ['a']] :=
  ⟨invert_total (fromOps [Operation.Delete 2]) ['a'], by decide⟩

end OT
